import Mathlib

/-!
The `os` scripting bridge of clink (`clink/lua/src/os_lua_api.cpp`).

A shallow embedding of the fifteen adapters that `os_lua_initialise` installs
in the interpreter's `os` table, together with the part of the Lua C API and
of the C string library they use.

* The interpreter handle is a value stack (slot 1 first) plus a ghost log of
  the collaborator calls made so far.
* Collaborators (`os::*`, `globber`, `process`, `path::get_name`, the settings
  and the Win32 primitives) are not part of the translation unit; their
  outcomes are the fields of `World`.
* C strings live in a byte memory `List Char`; a pointer is an offset into
  it and every read outside the memory makes the adapter return `none`.
* `get_aliases` is embedded in the configuration in which the body guarded by
  `#if !defined(__MINGW32__) && !defined(__MINGW64__)` is compiled.
* `int` counters are unbounded integers: the table indices stay far below
  `2^31` for every listing a process can hold.
-/

namespace OsLuaApi

/-! ## Interpreter values and the value stack -/

/-- Dynamic values of the interpreter that the bridge reads or pushes. -/
inductive LuaValue where
  | nil
  | boolean (b : Bool)
  | integer (n : Int)
  | string (s : String)
  | table (entries : List (Int × LuaValue))

/-- The integer-keyed part of a table, in insertion order. -/
abbrev LuaTable := List (Int × LuaValue)

/-- Raw read `t[k]`; an absent key reads as `nil`. -/
def LuaTable.rawgeti : LuaTable → Int → LuaValue
  | [], _ => LuaValue.nil
  | (k', v) :: rest, k => if k' = k then v else LuaTable.rawgeti rest k

/-- Whether key `k` holds a value in `t`. -/
def LuaTable.hasKey (t : LuaTable) (k : Int) : Bool :=
  t.any (fun e => decide (e.1 = k))

/-- Raw write `t[k] = v`; writing `nil` removes the key. -/
def LuaTable.rawseti (t : LuaTable) (k : Int) (v : LuaValue) : LuaTable :=
  match v with
  | LuaValue.nil => t.filter (fun e => !decide (e.1 = k))
  | _ =>
    if LuaTable.hasKey t k then t.map (fun e => if e.1 = k then (k, v) else e)
    else t ++ [(k, v)]

/-- The globber object as `glob_impl` configures it. -/
structure globber where
  mask : String
  files : Bool
  hidden : Bool
  system : Bool
  deriving DecidableEq

/-- One invocation of a collaborator, as recorded in the ghost log. -/
inductive OsCall where
  | set_current_dir (dir : String)
  | get_current_dir
  | make_dir (dir : String)
  | remove_dir (dir : String)
  | get_path_type (path : String)
  | unlink (path : String)
  | move (src dest : String)
  | copy (src dest : String)
  | globber_next (g : globber)
  | get_env (name : String)
  | GetEnvironmentStrings
  | FreeEnvironmentStrings
  | get_file_name
  | GetConsoleAliasesLength (name : String)
  | GetConsoleAliases (name : String)
  deriving DecidableEq

/-- The interpreter handle for one adapter call: the value stack of the
running C function (slot 1 is the head of the list, the top is its last
element) and the ghost log of collaborator calls. -/
structure lua_State where
  stack : List LuaValue
  calls : List OsCall

/-- Modelled from the spec: the path-type classifiers of `core/os.h`, which is
not part of the translation unit. The spec names a directory constant, a file
constant and other types that are neither. -/
inductive path_type where
  | path_type_invalid
  | path_type_file
  | path_type_dir
  deriving DecidableEq

/-- Outcomes of everything outside the translation unit. -/
structure World where
  /-- The interpreter's number-to-string coercion used by `lua_tostring`. -/
  number2str : Int → String
  set_current_dir : String → Bool
  /-- Contents of the out-buffer after `os::get_current_dir`. -/
  get_current_dir : String
  make_dir : String → Bool
  remove_dir : String → Bool
  get_path_type : String → path_type
  unlink : String → Bool
  move : String → String → Bool
  copy : String → String → Bool
  /-- Current value of the setting `g_glob_hidden`. -/
  g_glob_hidden : Bool
  /-- Current value of the setting `g_glob_system`. -/
  g_glob_system : Bool
  /-- The finite sequence of paths that successive `globber.next` calls yield. -/
  globber_next : globber → List String
  /-- Result of `os::get_env`: `none` when it returns false. -/
  get_env : String → Option String
  /-- The block `GetEnvironmentStrings` returns, `none` for a null pointer. -/
  GetEnvironmentStrings : Option (List Char)
  /-- Return value of `process().get_file_name` (true on success) and the
  contents of its out-buffer afterwards. -/
  get_file_name : Bool × String
  /-- The helper `path::get_name`: final component of a path. -/
  get_name : String → String
  GetConsoleAliasesLength : String → Nat
  /-- Return value of `GetConsoleAliases` and the buffer memory afterwards. -/
  GetConsoleAliases : String → Nat × List Char

/-- Append a collaborator call to the ghost log. -/
def lua_State.log (st : lua_State) (c : OsCall) : lua_State :=
  { st with calls := st.calls ++ [c] }

/-- Stack depth, `lua_gettop`. -/
def lua_gettop (st : lua_State) : Int := st.stack.length

/-- Position in `stack` of an acceptable index: positive indices count from
slot 1, negative ones from the top. -/
def index2pos (st : lua_State) (idx : Int) : Option Nat :=
  if 0 < idx ∧ idx ≤ st.stack.length then some (idx - 1).toNat
  else if idx < 0 ∧ -idx ≤ st.stack.length then some (st.stack.length + idx).toNat
  else none

/-- The value at an index, `nil` where the index is not acceptable. -/
def index2value (st : lua_State) (idx : Int) : LuaValue :=
  match index2pos st idx with
  | some p => st.stack.getD p LuaValue.nil
  | none => LuaValue.nil

/-- Strings and numbers count as strings, `lua_isstring`. -/
def lua_isstring (st : lua_State) (idx : Int) : Bool :=
  match index2value st idx with
  | LuaValue.string _ => true
  | LuaValue.integer _ => true
  | _ => false

/-- String at an index, `lua_tostring`; a number is converted in place. -/
def lua_tostring (w : World) (st : lua_State) (idx : Int) : Option String × lua_State :=
  match index2value st idx with
  | LuaValue.string s => (some s, st)
  | LuaValue.integer n =>
    match index2pos st idx with
    | some p =>
      (some (w.number2str n),
        { st with stack := st.stack.set p (LuaValue.string (w.number2str n)) })
    | none => (none, st)
  | _ => (none, st)

def lua_push (st : lua_State) (v : LuaValue) : lua_State :=
  { st with stack := st.stack ++ [v] }

def lua_pushboolean (st : lua_State) (b : Bool) : lua_State :=
  lua_push st (LuaValue.boolean b)

def lua_pushnil (st : lua_State) : lua_State :=
  lua_push st LuaValue.nil

def lua_pushstring (st : lua_State) (s : String) : lua_State :=
  lua_push st (LuaValue.string s)

def lua_pushinteger (st : lua_State) (n : Int) : lua_State :=
  lua_push st (LuaValue.integer n)

/-- Push a new empty table, `lua_createtable(state, 0, 0)`. -/
def lua_createtable (st : lua_State) : lua_State :=
  lua_push st (LuaValue.table [])

/-- The call `lua_rawseti(state, idx, n)`: `t[n] = v` for the table `t` at
`idx` and the value `v` on top, which is popped. `none` when the stack is
empty or `idx` does not hold a table. -/
def lua_rawseti (st : lua_State) (idx : Int) (n : Int) : Option lua_State :=
  match st.stack.getLast?, index2pos st idx, index2value st idx with
  | some v, some p, LuaValue.table t =>
    some { st with
      stack := (st.stack.set p (LuaValue.table (LuaTable.rawseti t n v))).dropLast }
  | _, _, _ => none

/-- The values the interpreter takes as the results of a C function that
returned `n`: the top `n` stack values, first result first. -/
def lua_results (st : lua_State) (n : Nat) : List LuaValue :=
  st.stack.drop (st.stack.length - n)

/-! ## The value-stack adapter layer -/

/-- The string argument in slot `index`; `none` stands for nullptr. -/
def get_string (w : World) (st : lua_State) (index : Int) : Option String × lua_State :=
  if lua_gettop st < index ∨ !lua_isstring st index then (none, st)
  else lua_tostring w st index

/-! ## C strings in a byte memory -/

/-- Length of the NUL-terminated string at the start of `s`; `none` when no
NUL is found before the memory ends. -/
def c_strlen : List Char → Option Nat
  | [] => none
  | b :: rest => if b = '\x00' then some 0 else (c_strlen rest).map (· + 1)

/-- Offset of the first `ch` in the NUL-terminated string at the start of
`s`: `some none` when the string has none, `none` when the memory ends before
either is found. -/
def c_strchr (ch : Char) : List Char → Option (Option Nat)
  | [] => none
  | b :: rest =>
    if b = ch then some (some 0)
    else if b = '\x00' then some none
    else (c_strchr ch rest).map (fun r => r.map (· + 1))

/-- The call `strlen(p)` in memory `mem`. -/
def strlen (mem : List Char) (p : Nat) : Option Nat :=
  if p < mem.length then c_strlen (mem.drop p) else none

/-- The call `strchr(p, ch)` in memory `mem`: `some none` is nullptr, `none` a
read outside the memory. -/
def strchr (mem : List Char) (p : Nat) (ch : Char) : Option (Option Nat) :=
  if p < mem.length then (c_strchr ch (mem.drop p)).map (fun r => r.map (p + ·)) else none

/-- The bytes of the NUL-terminated string at `p`, as `lua_pushstring` reads
them. -/
def c_str (mem : List Char) (p : Nat) : Option String :=
  (strlen mem p).map (fun n => String.mk ((mem.drop p).take n))

/-- The call `lua_pushlstring(state, mem + p, len)`. -/
def lua_pushlstring (st : lua_State) (mem : List Char) (p len : Nat) : lua_State :=
  lua_pushstring st (String.mk ((mem.drop p).take len))

/-! ## Filesystem adapters -/

def set_current_dir (w : World) (st : lua_State) : Option (lua_State × Nat) :=
  match get_string w st 1 with
  | (some dir, st1) =>
    let ok := w.set_current_dir dir
    some (lua_pushboolean (st1.log (OsCall.set_current_dir dir)) (ok == true), 1)
  | (none, st1) => some (lua_pushboolean st1 (false == true), 1)

def get_current_dir (w : World) (st : lua_State) : Option (lua_State × Nat) :=
  let dir := w.get_current_dir
  some (lua_pushstring (st.log OsCall.get_current_dir) dir, 1)

def make_dir (w : World) (st : lua_State) : Option (lua_State × Nat) :=
  match get_string w st 1 with
  | (some dir, st1) =>
    let ok := w.make_dir dir
    some (lua_pushboolean (st1.log (OsCall.make_dir dir)) (ok == true), 1)
  | (none, st1) => some (lua_pushboolean st1 (false == true), 1)

def remove_dir (w : World) (st : lua_State) : Option (lua_State × Nat) :=
  match get_string w st 1 with
  | (some dir, st1) =>
    let ok := w.remove_dir dir
    some (lua_pushboolean (st1.log (OsCall.remove_dir dir)) (ok == true), 1)
  | (none, st1) => some (lua_pushboolean st1 (false == true), 1)

def is_dir (w : World) (st : lua_State) : Option (lua_State × Nat) :=
  match get_string w st 1 with
  | (none, st1) => some (st1, 0)
  | (some path, st1) =>
    some (lua_pushboolean (st1.log (OsCall.get_path_type path))
      (decide (w.get_path_type path = path_type.path_type_dir)), 1)

def is_file (w : World) (st : lua_State) : Option (lua_State × Nat) :=
  match get_string w st 1 with
  | (none, st1) => some (st1, 0)
  | (some path, st1) =>
    some (lua_pushboolean (st1.log (OsCall.get_path_type path))
      (decide (w.get_path_type path = path_type.path_type_file)), 1)

def unlink (w : World) (st : lua_State) : Option (lua_State × Nat) :=
  match get_string w st 1 with
  | (none, st1) => some (st1, 0)
  | (some path, st1) =>
    let st2 := st1.log (OsCall.unlink path)
    if w.unlink path then
      some (lua_pushboolean st2 true, 1)
    else
      some (lua_pushinteger (lua_pushstring (lua_pushnil st2) "error") 1, 3)

def move (w : World) (st : lua_State) : Option (lua_State × Nat) :=
  match get_string w st 1 with
  | (src, st1) =>
    match get_string w st1 2 with
    | (dest, st2) =>
      -- `src != nullptr && dest != nullptr && os::move(src, dest)`, left to right
      let cond : Bool × lua_State :=
        match src, dest with
        | some src, some dest => (w.move src dest, st2.log (OsCall.move src dest))
        | _, _ => (false, st2)
      if cond.1 then
        some (lua_pushboolean cond.2 true, 1)
      else
        some (lua_pushinteger (lua_pushstring (lua_pushnil cond.2) "error") 1, 3)

def copy (w : World) (st : lua_State) : Option (lua_State × Nat) :=
  match get_string w st 1 with
  | (src, st1) =>
    match get_string w st1 2 with
    | (dest, st2) =>
      match src, dest with
      | some src, some dest =>
        some (lua_pushboolean (st2.log (OsCall.copy src dest)) (w.copy src dest == true), 1)
      | _, _ => some (st2, 0)

/-! ## Globbing adapters -/

/-- The loop `while (globber.next(file, false))` of `glob_impl`, run over the
paths the globber still has to yield. -/
def glob_impl_loop (g : globber) : List String → Int → lua_State → Option lua_State
  | [], _, st => some (st.log (OsCall.globber_next g))
  | file :: rest, i, st =>
    match lua_rawseti (lua_pushstring (st.log (OsCall.globber_next g)) file) (-2) i with
    | some st1 => glob_impl_loop g rest (i + 1) st1
    | none => none

def glob_impl (w : World) (st : lua_State) (dirs_only : Bool) : Option (lua_State × Nat) :=
  match get_string w st 1 with
  | (none, st1) => some (st1, 0)
  | (some mask, st1) =>
    let st2 := lua_createtable st1
    let g : globber :=
      { mask := mask, files := !dirs_only, hidden := w.g_glob_hidden, system := w.g_glob_system }
    match glob_impl_loop g (w.globber_next g) 1 st2 with
    | some st3 => some (st3, 1)
    | none => none

def glob_dirs (w : World) (st : lua_State) : Option (lua_State × Nat) :=
  glob_impl w st true

def glob_files (w : World) (st : lua_State) : Option (lua_State × Nat) :=
  glob_impl w st false

/-! ## Environment adapters -/

def get_env (w : World) (st : lua_State) : Option (lua_State × Nat) :=
  match get_string w st 1 with
  | (none, st1) => some (st1, 0)
  | (some name, st1) =>
    let st2 := st1.log (OsCall.get_env name)
    match w.get_env name with
    | none => some (st2, 0)
    | some value => some (lua_pushstring st2 value, 1)

/-- The loop `while (*strings)` of `get_env_names` over the block `mem`, with
`strings` the current offset and `i` the next key. Every iteration moves
`strings` forward, so `fuel` above the length of the block is never used up. -/
def get_env_names_loop : Nat → List Char → Nat → Int → lua_State → Option lua_State
  | 0, _, _, _, _ => none
  | fuel + 1, mem, strings, i, st =>
    match mem[strings]? with
    | none => none
    | some b =>
      if b = '\x00' then some st
      else if b = '=' then
        -- Skip env vars that start with a '='. They're hidden ones.
        match strlen mem strings with
        | some n => get_env_names_loop fuel mem (strings + n + 1) i st
        | none => none
      else
        match strchr mem strings '=' with
        | none => none
        | some none => some st
        | some (some eq) =>
          let mem1 := mem.set eq '\x00'
          match c_str mem1 strings with
          | none => none
          | some name =>
            match lua_rawseti (lua_pushstring st name) (-2) i with
            | none => none
            | some st1 =>
              match strlen mem1 (eq + 1) with
              | some n => get_env_names_loop fuel mem1 (eq + 1 + n + 1) (i + 1) st1
              | none => none

def get_env_names (w : World) (st : lua_State) : Option (lua_State × Nat) :=
  let st1 := (lua_createtable st).log OsCall.GetEnvironmentStrings
  match w.GetEnvironmentStrings with
  | none => some (st1, 1)
  | some root =>
    match get_env_names_loop (root.length + 1) root 0 1 st1 with
    | some st2 => some (st2.log OsCall.FreeEnvironmentStrings, 1)
    | none => none

/-! ## Host-introspection adapters -/

def get_host (w : World) (st : lua_State) : Option (lua_State × Nat) :=
  let st1 := st.log OsCall.get_file_name
  if w.get_file_name.1 then
    some (st1, 0)
  else
    some (lua_pushstring st1 w.get_file_name.2, 1)

/-- The loop `for (int i = 1; int(alias - buffer.c_str()) < buffer_size; ++i)`
of `get_aliases`, with `alias_` the offset of the pointer `alias` into
`buffer`. The body post-increments `i` in `lua_rawseti(state, -2, i++)` and
the loop header increments it again. -/
def get_aliases_loop : Nat → List Char → Nat → Nat → Int → lua_State → Option lua_State
  | 0, _, _, _, _, _ => none
  | fuel + 1, buffer, buffer_size, alias_, i, st =>
    if alias_ < buffer_size then
      match strchr buffer alias_ '=' with
      | none => none
      | some none => some st
      | some (some c) =>
        match lua_rawseti (lua_pushlstring st buffer alias_ (c - alias_)) (-2) i with
        | none => none
        | some st1 =>
          match strlen buffer (c + 1) with
          | some n => get_aliases_loop fuel buffer buffer_size (c + 1 + n + 1) (i + 1 + 1) st1
          | none => none
    else some st

def get_aliases (w : World) (st : lua_State) : Option (lua_State × Nat) :=
  let st1 := (lua_createtable st).log OsCall.get_file_name
  if !w.get_file_name.1 then
    some (st1, 1)
  else
    let name := w.get_name w.get_file_name.2
    let st2 := st1.log (OsCall.GetConsoleAliasesLength name)
    let buffer_size := w.GetConsoleAliasesLength name
    if buffer_size = 0 then
      some (st2, 1)
    else
      let st3 := st2.log (OsCall.GetConsoleAliases name)
      if (w.GetConsoleAliases name).1 = 0 then
        some (st3, 1)
      else
        let buffer := (w.GetConsoleAliases name).2
        match get_aliases_loop (buffer.length + 1) buffer buffer_size 0 1 st3 with
        | some st4 => some (st4, 1)
        | none => none

/-! ## Registration -/

/-- The table `methods` of `os_lua_initialise`: the bound names and adapters. -/
def methods : List (String × (World → lua_State → Option (lua_State × Nat))) :=
  [ ("chdir", set_current_dir),
    ("getcwd", get_current_dir),
    ("mkdir", make_dir),
    ("rmdir", remove_dir),
    ("isdir", is_dir),
    ("isfile", is_file),
    ("unlink", unlink),
    ("move", move),
    ("copy", copy),
    ("globdirs", glob_dirs),
    ("globfiles", glob_files),
    ("getenv", get_env),
    ("getenvnames", get_env_names),
    ("gethost", get_host),
    ("getaliases", get_aliases) ]

/-! ## Specification-side vocabulary -/

/-- The keys of a table, in insertion order. -/
def LuaTable.keys (t : LuaTable) : List Int := t.map Prod.fst

/-- The values of a table, in insertion order. -/
def LuaTable.values (t : LuaTable) : List LuaValue := t.map Prod.snd

/-- The integers `1, 2, ..., n`. -/
def oneTo (n : Nat) : List Int := (List.range n).map (fun (k : Nat) => (k : Int) + 1)

/-- The table that holds `names` under the keys `i, i + step, i + 2 * step, ...`. -/
def listingFrom (i step : Int) : List String → LuaTable
  | [] => []
  | s :: rest => (i, LuaValue.string s) :: listingFrom (i + step) step rest

/-- The bytes of a sequence of records, each followed by its NUL. -/
def encodeRecords : List (List Char) → List Char
  | [] => []
  | r :: rest => r ++ '\x00' :: encodeRecords rest

/-- An environment block: NUL-terminated records followed by an extra NUL. -/
def envBlock (recs : List (List Char)) : List Char :=
  encodeRecords recs ++ ['\x00']

/-- Records of an environment block: none is empty (an empty record would be
the terminator) and none contains a NUL. -/
def WellFormedRecords (recs : List (List Char)) : Prop :=
  ∀ r ∈ recs, r ≠ [] ∧ '\x00' ∉ r

/-- The part of a record before its first `=`. -/
def recordName (r : List Char) : String :=
  String.mk (r.takeWhile (fun b => decide (b ≠ '=')))

/-- The names the specification lists for an environment block: over the
records before the first one that neither starts with `=` nor contains `=`,
the prefix before the first `=` of each record that does not start with `=`. -/
def spec_env_names (recs : List (List Char)) : List String :=
  ((recs.takeWhile (fun r => decide (r.head? = some '=') || decide ('=' ∈ r))).filter
    (fun r => !decide (r.head? = some '='))).map recordName

/-- The names the specification lists for an alias block: the `NAME` part of
each record, up to the first record without `=`. -/
def spec_alias_names (recs : List (List Char)) : List String :=
  (recs.takeWhile (fun r => decide ('=' ∈ r))).map recordName

/-- What the operating system hands to `get_aliases`: NUL-terminated records
(an extra NUL terminator counts as an empty record) in a buffer at least as
long, and their total length as the answer of `GetConsoleAliasesLength`. -/
def AliasBlock (buffer : List Char) (buffer_size : Nat) : Prop :=
  ∃ (recs : List (List Char)) (tail : List Char), (∀ r ∈ recs, '\x00' ∉ r) ∧
    buffer = encodeRecords recs ++ tail ∧ buffer_size = (encodeRecords recs).length

/-- The environment block is absent, or it starts with well-formed records
and their extra NUL; what the memory holds after that is left open. -/
def World.EnvWellFormed (w : World) : Prop :=
  w.GetEnvironmentStrings = none ∨
    ∃ recs tail, WellFormedRecords recs ∧
      w.GetEnvironmentStrings = some (envBlock recs ++ tail)

/-- Whenever `get_aliases` gets as far as walking the alias buffer of the
host's base name, that buffer is an alias block. -/
def World.AliasesWellFormed (w : World) : Prop :=
  w.get_file_name.1 = true →
  w.GetConsoleAliasesLength (w.get_name w.get_file_name.2) ≠ 0 →
  (w.GetConsoleAliases (w.get_name w.get_file_name.2)).1 ≠ 0 →
  AliasBlock (w.GetConsoleAliases (w.get_name w.get_file_name.2)).2
    (w.GetConsoleAliasesLength (w.get_name w.get_file_name.2))

/-- The collaborators hand over well-formed blocks. -/
def World.WellFormed (w : World) : Prop :=
  w.EnvWellFormed ∧ w.AliasesWellFormed

/-- The stack discipline: the adapter returns, and the stack is deeper than
at entry by the number of results it declares. -/
def KeepsDepth (f : World → lua_State → Option (lua_State × Nat)) (w : World)
    (st : lua_State) : Prop :=
  ∃ st' n, f w st = some (st', n) ∧ st'.stack.length = st.stack.length + n

/-- A host in the state of the specification's scenarios: environment
`PATH=x`, `=C:=C:/work`, `X=`; two console aliases `ls=dir` and `cat=type`;
files `a.txt`, `b.txt` and directory `sub` in the current directory. -/
def exampleWorld : World :=
  { number2str := fun n => toString n
    set_current_dir := fun _ => true
    get_current_dir := "C:/work"
    make_dir := fun _ => true
    remove_dir := fun _ => true
    get_path_type := fun p =>
      if p = "sub" then path_type.path_type_dir
      else if p = "a.txt" then path_type.path_type_file
      else path_type.path_type_invalid
    unlink := fun p => decide (p = "a.txt")
    move := fun s _ => decide (s = "a.txt")
    copy := fun _ _ => true
    g_glob_hidden := false
    g_glob_system := false
    globber_next := fun g => if g.files then ["a.txt", "b.txt", "sub"] else ["sub"]
    get_env := fun n => if n = "X" then some "" else none
    GetEnvironmentStrings := some (envBlock ["PATH=x".data, "=C:=C:/work".data, "X=".data])
    get_file_name := (true, "C:/clink/cmd.exe")
    get_name := fun _ => "cmd.exe"
    GetConsoleAliasesLength := fun _ => 16
    GetConsoleAliases := fun _ => (16, encodeRecords ["ls=dir".data, "cat=type".data]) }

/-- The same host with an environment block whose third record, `BROKEN`,
has no `=`. -/
def exampleWorldBrokenEnv : World :=
  { exampleWorld with
    GetEnvironmentStrings :=
      some (envBlock ["A=1".data, "=C:=C:/".data, "BROKEN".data, "B=2".data]) }

/-- The same host when the query for the executable path fails. -/
def exampleWorldNoHost : World :=
  { exampleWorld with get_file_name := (false, "") }

/-! ## Stack lemmas -/

theorem index2pos_neg_two (pre : List LuaValue) (a b : LuaValue) (c : List OsCall) :
    index2pos ⟨pre ++ [a, b], c⟩ (-2) = some pre.length := by
  simp only [index2pos, List.length_append, List.length_cons, List.length_nil]
  have h1 : ¬ ((0 : Int) < -2 ∧ (-2 : Int) ≤ ((pre.length + (0 + 1 + 1) : Nat) : Int)) := by
    intro h; omega
  have h2 : ((-2 : Int) < 0 ∧ -(-2 : Int) ≤ ((pre.length + (0 + 1 + 1) : Nat) : Int)) := by
    constructor <;> omega
  rw [if_neg h1, if_pos h2]
  congr 1
  omega

theorem lua_rawseti_neg_two (pre : List LuaValue) (t : LuaTable) (v : LuaValue)
    (c : List OsCall) (n : Int) :
    lua_rawseti ⟨pre ++ [LuaValue.table t, v], c⟩ (-2) n
      = some ⟨pre ++ [LuaValue.table (LuaTable.rawseti t n v)], c⟩ := by
  have hp := index2pos_neg_two pre (LuaValue.table t) v c
  have hv : index2value ⟨pre ++ [LuaValue.table t, v], c⟩ (-2) = LuaValue.table t := by
    simp only [index2value, hp]
    rw [List.getD_append_right _ _ _ _ (le_refl _)]
    simp
  have hl : (pre ++ [LuaValue.table t, v]).getLast? = some v := by
    simp [List.getLast?_append]
  simp only [lua_rawseti, hl, hp, hv]
  congr 2
  rw [List.set_append_right _ _ (le_refl _)]
  simp [List.dropLast_append_of_ne_nil]


/-- The state `get_string` leaves behind differs from the one it was given at
most by one stack slot converted to a string. -/
theorem get_string_state (w : World) (st : lua_State) (idx : Int) :
    (get_string w st idx).2 = st ∨
    ∃ p s, index2pos st idx = some p ∧
      (get_string w st idx).2 = { st with stack := st.stack.set p (LuaValue.string s) } := by
  unfold get_string
  split
  · exact Or.inl rfl
  · unfold lua_tostring
    split
    · exact Or.inl rfl
    · split
      · rename_i n _ p hp
        exact Or.inr ⟨p, _, hp, rfl⟩
      · exact Or.inl rfl
    · exact Or.inl rfl

theorem get_string_stack_length (w : World) (st : lua_State) (idx : Int) :
    (get_string w st idx).2.stack.length = st.stack.length := by
  rcases get_string_state w st idx with h | ⟨p, s, _, h⟩ <;> rw [h]
  simp

theorem get_string_calls (w : World) (st : lua_State) (idx : Int) :
    (get_string w st idx).2.calls = st.calls := by
  rcases get_string_state w st idx with h | ⟨p, s, _, h⟩ <;> rw [h]

theorem get_string_none (w : World) (st : lua_State) (idx : Int)
    (h : (get_string w st idx).1 = none) : (get_string w st idx).2 = st := by
  unfold get_string at h ⊢
  split
  · rfl
  · rename_i hc
    rw [if_neg hc] at h
    unfold lua_tostring at h ⊢
    split <;> simp_all
    split <;> simp_all

theorem index2pos_one (st : lua_State) (p : Nat) (h : index2pos st 1 = some p) : p = 0 := by
  unfold index2pos at h
  split at h
  · simpa using h.symm
  · split at h
    · omega
    · simp at h

/-- Reading slot 1 does not change what slot 2 holds. -/
theorem get_string_two_after_one (w : World) (st : lua_State) :
    (get_string w (get_string w st 1).2 2).1 = (get_string w st 2).1 := by
  rcases get_string_state w st 1 with h | ⟨p, s, hp, h⟩
  · rw [h]
  · rw [h]
    have hp0 := index2pos_one st p hp
    subst hp0
    have hpos : ∀ q, index2pos { st with stack := st.stack.set 0 (LuaValue.string s) } 2 = q ↔
        index2pos st 2 = q := by
      intro q; simp [index2pos]
    have hval : index2value { st with stack := st.stack.set 0 (LuaValue.string s) } 2
        = index2value st 2 := by
      unfold index2value
      cases hq : index2pos st 2 with
      | none => rw [(hpos none).2 hq]
      | some q =>
        rw [(hpos (some q)).2 hq]
        have : q = 1 := by
          unfold index2pos at hq
          split at hq
          · simp at hq; omega
          · split at hq
            · omega
            · simp at hq
        subst this
        simp [List.getD, List.getElem?_set]
    unfold get_string lua_gettop lua_isstring lua_tostring
    simp only [hval, List.length_set]
    split
    · rfl
    · split
      · rfl
      · cases hq : index2pos st 2 with
        | none => rw [(hpos none).2 hq]
        | some q => rw [(hpos (some q)).2 hq]
      · rfl



theorem c_strlen_record (r rest : List Char) (h : '\x00' ∉ r) :
    c_strlen (r ++ '\x00' :: rest) = some r.length := by
  induction r with
  | nil => simp [c_strlen]
  | cons b r ih =>
    have hb : b ≠ '\x00' := fun e => h (by simp [e])
    have hr : '\x00' ∉ r := fun e => h (by simp [e])
    simp [c_strlen, hb, ih hr]

theorem c_strchr_found (ch : Char) (name rest : List Char) (h1 : ch ∉ name)
    (h0 : '\x00' ∉ name) : c_strchr ch (name ++ ch :: rest) = some (some name.length) := by
  induction name with
  | nil => simp [c_strchr]
  | cons b r ih =>
    have hb : b ≠ '\x00' := fun e => h0 (by simp [e])
    have hc : b ≠ ch := fun e => h1 (by simp [e])
    have hr : '\x00' ∉ r := fun e => h0 (by simp [e])
    have hr1 : ch ∉ r := fun e => h1 (by simp [e])
    simp [c_strchr, hb, hc, ih hr1 hr]

theorem c_strchr_absent (ch : Char) (r rest : List Char) (h1 : ch ∉ r)
    (h0 : '\x00' ∉ r) (hne : ch ≠ '\x00') : c_strchr ch (r ++ '\x00' :: rest) = some none := by
  induction r with
  | nil => simp [c_strchr, hne.symm]
  | cons b r ih =>
    have hb : b ≠ '\x00' := fun e => h0 (by simp [e])
    have hc : b ≠ ch := fun e => h1 (by simp [e])
    have hr : '\x00' ∉ r := fun e => h0 (by simp [e])
    have hr1 : ch ∉ r := fun e => h1 (by simp [e])
    simp [c_strchr, hb, hc, ih hr1 hr]

theorem getElem?_at (p s : List Char) (b : Char) : (p ++ b :: s)[p.length]? = some b := by
  rw [List.getElem?_append_right (le_refl _)]
  simp

theorem set_at (p n s : List Char) (x y : Char) :
    (p ++ (n ++ x :: s)).set (p.length + n.length) y = p ++ (n ++ y :: s) := by
  rw [List.set_append_right _ _ (by omega)]
  simp

theorem strlen_at (p s : List Char) (hs : s ≠ []) :
    strlen (p ++ s) p.length = c_strlen s := by
  have : 0 < s.length := List.length_pos.2 hs
  simp [strlen, this]

theorem strchr_at (p s : List Char) (ch : Char) (hs : s ≠ []) :
    strchr (p ++ s) p.length ch = (c_strchr ch s).map (fun r => r.map (p.length + ·)) := by
  have : 0 < s.length := List.length_pos.2 hs
  simp [strchr, this]

theorem c_str_at (p name rest : List Char) (h0 : '\x00' ∉ name) :
    c_str (p ++ (name ++ '\x00' :: rest)) p.length = some (String.mk name) := by
  simp [c_str, strlen_at, c_strlen_record _ _ h0]

/-- A record that contains `ch` splits at its first occurrence. -/
theorem record_split (ch : Char) (r : List Char) (h : ch ∈ r) :
    ∃ value, r = r.takeWhile (fun b => decide (b ≠ ch)) ++ ch :: value := by
  induction r with
  | nil => simp at h
  | cons b r ih =>
    by_cases hb : b = ch
    · exact ⟨r, by simp [List.takeWhile, hb]⟩
    · have hr : ch ∈ r := by
        rcases List.mem_cons.1 h with e | e
        · exact absurd e.symm hb
        · exact e
      obtain ⟨value, hv⟩ := ih hr
      refine ⟨value, ?_⟩
      simp only [List.takeWhile, hb, ne_eq, not_false_eq_true, decide_True, List.cons_append]
      rw [← hv]

theorem takeWhile_not_mem (ch : Char) (r : List Char) :
    ch ∉ r.takeWhile (fun b => decide (b ≠ ch)) := by
  intro h
  have := List.mem_takeWhile_imp h
  simp at this






theorem rawseti_fresh (t : LuaTable) (i : Int) (s : String) (h : ∀ e ∈ t, e.1 < i) :
    LuaTable.rawseti t i (LuaValue.string s) = t ++ [(i, LuaValue.string s)] := by
  have hk : LuaTable.hasKey t i = false := by
    simp only [LuaTable.hasKey, List.any_eq_false, decide_eq_true_eq]
    intro e he heq
    have := h e he
    omega
  simp [LuaTable.rawseti, hk]

theorem push_rawseti_fresh (pre : List LuaValue) (t : LuaTable) (c : List OsCall) (i : Int)
    (s : String) (h : ∀ e ∈ t, e.1 < i) :
    lua_rawseti (lua_pushstring ⟨pre ++ [LuaValue.table t], c⟩ s) (-2) i
      = some ⟨pre ++ [LuaValue.table (t ++ [(i, LuaValue.string s)])], c⟩ := by
  have : lua_pushstring ⟨pre ++ [LuaValue.table t], c⟩ s
      = ⟨pre ++ [LuaValue.table t, LuaValue.string s], c⟩ := by
    simp [lua_pushstring, lua_push]
  rw [this, lua_rawseti_neg_two, rawseti_fresh t i s h]

theorem keys_lt_snoc (t : LuaTable) (i k : Int) (v : LuaValue) (h : ∀ e ∈ t, e.1 < i)
    (hk : i < k) : ∀ e ∈ t ++ [(i, v)], e.1 < k := by
  intro e he
  rcases List.mem_append.1 he with h1 | h1
  · have := h e h1; omega
  · simp at h1; subst h1; exact hk

theorem get_env_names_loop_spec (recs : List (List Char)) (hwf : WellFormedRecords recs)
    (tail : List Char) :
    ∀ (fuel : Nat) (p : List Char) (i : Int) (pre : List LuaValue) (t : LuaTable)
      (c : List OsCall), recs.length < fuel → (∀ e ∈ t, e.1 < i) →
      get_env_names_loop fuel (p ++ (encodeRecords recs ++ '\x00' :: tail)) p.length i
          ⟨pre ++ [LuaValue.table t], c⟩
        = some ⟨pre ++ [LuaValue.table (t ++ listingFrom i 1 (spec_env_names recs))], c⟩ := by
  induction recs with
  | nil =>
    intro fuel p i pre t c hf ht
    obtain ⟨fuel, rfl⟩ : ∃ f, fuel = f + 1 := ⟨fuel - 1, by simp at hf; omega⟩
    have hhead : (p ++ '\x00' :: tail)[p.length]? = some '\x00' := getElem?_at p tail _
    simp [get_env_names_loop, encodeRecords, spec_env_names, listingFrom, hhead]
  | cons r rest ih =>
    intro fuel p i pre t c hf ht
    obtain ⟨fuel, rfl⟩ : ∃ f, fuel = f + 1 := ⟨fuel - 1, by simp at hf; omega⟩
    have hf1 : rest.length < fuel := by simp at hf; omega
    have hwr : WellFormedRecords rest := fun x hx => hwf x (List.mem_cons_of_mem _ hx)
    obtain ⟨hrne, hr0⟩ := hwf r (List.mem_cons_self _ _)
    obtain ⟨b, r1, rfl⟩ := List.exists_cons_of_ne_nil hrne
    have hb0 : b ≠ '\x00' := fun e => hr0 (by simp [e])
    have hmem : p ++ (encodeRecords ((b :: r1) :: rest) ++ '\x00' :: tail)
        = p ++ ((b :: r1) ++ '\x00' :: (encodeRecords rest ++ '\x00' :: tail)) := by
      simp [encodeRecords]
    have hhead : (p ++ ((b :: r1) ++ '\x00' :: (encodeRecords rest ++ '\x00' :: tail)))[p.length]?
        = some b := getElem?_at p _ b
    rw [hmem]
    unfold get_env_names_loop
    simp only [hhead, if_neg hb0]
    by_cases hbeq : b = '='
    · -- a hidden record is skipped
      rw [if_pos hbeq]
      rw [strlen_at _ _ (by simp), c_strlen_record _ _ hr0]
      have hspec : spec_env_names ((b :: r1) :: rest) = spec_env_names rest := by
        simp [spec_env_names, List.takeWhile, List.filter, hbeq]
      have hm2 : p ++ ((b :: r1) ++ '\x00' :: (encodeRecords rest ++ '\x00' :: tail))
          = (p ++ (b :: r1) ++ ['\x00']) ++ (encodeRecords rest ++ '\x00' :: tail) := by simp
      have hp2 : p.length + (b :: r1).length + 1 = (p ++ (b :: r1) ++ ['\x00']).length := by
        simp [Nat.add_assoc]
      simp only [hspec]
      rw [hm2, hp2]
      exact ih hwr fuel _ i pre t c hf1 ht
    · rw [if_neg hbeq]
      by_cases heq : '=' ∈ (b :: r1)
      · -- the name before the first '=' is stored under key `i`
        obtain ⟨value, hv⟩ := record_split '=' (b :: r1) heq
        have hspec : spec_env_names ((b :: r1) :: rest)
            = recordName (b :: r1) :: spec_env_names rest := by
          have : ('=' = b ∨ '=' ∈ r1) := by simpa using heq
          simp [spec_env_names, List.takeWhile, List.filter, hbeq, this]
        have hn1 := takeWhile_not_mem '=' (b :: r1)
        have hname : recordName (b :: r1)
            = String.mk ((b :: r1).takeWhile (fun x => decide (x ≠ '='))) := rfl
        rw [hspec, hname]
        generalize (b :: r1).takeWhile (fun x => decide (x ≠ '=')) = name at hv hn1
        have hn0 : '\x00' ∉ name := fun e => hr0 (by rw [hv]; simp [e])
        have hv0 : '\x00' ∉ value := fun e => hr0 (by rw [hv]; simp [e])
        rw [hv]
        have hm1 : p ++ ((name ++ '=' :: value) ++ '\x00' :: (encodeRecords rest ++ '\x00' :: tail))
            = p ++ (name ++ '=' :: (value ++ '\x00' :: (encodeRecords rest ++ '\x00' :: tail))) := by
          simp
        rw [hm1, strchr_at _ _ _ (by simp), c_strchr_found '=' name _ hn1 hn0]
        simp only [Option.map_some']
        rw [set_at, c_str_at p name _ hn0]
        simp only []
        rw [push_rawseti_fresh pre t c i _ ht]
        simp only []
        have hm2 : p ++ (name ++ '\x00' :: (value ++ '\x00' :: (encodeRecords rest ++ '\x00' :: tail)))
            = (p ++ name ++ ['\x00']) ++ (value ++ '\x00' :: (encodeRecords rest ++ '\x00' :: tail)) := by
          simp
        have hp2 : p.length + name.length + 1 = (p ++ name ++ ['\x00']).length := by
          simp [Nat.add_assoc]
        rw [hm2, hp2, strlen_at _ _ (by simp), c_strlen_record _ _ hv0]
        simp only []
        have hm3 : (p ++ name ++ ['\x00']) ++ (value ++ '\x00' :: (encodeRecords rest ++ '\x00' :: tail))
            = (p ++ name ++ ['\x00'] ++ value ++ ['\x00']) ++ (encodeRecords rest ++ '\x00' :: tail) := by
          simp
        have hp3 : (p ++ name ++ ['\x00']).length + value.length + 1
            = (p ++ name ++ ['\x00'] ++ value ++ ['\x00']).length := by
          simp only [List.length_append, List.length_cons, List.length_nil]
        rw [hm3, hp3, ih hwr fuel _ (i + 1) pre _ c hf1
          (keys_lt_snoc t i (i + 1) _ ht (by omega))]
        simp [listingFrom]
      · -- a record without '=' ends the walk
        rw [strchr_at _ _ _ (by simp),
          c_strchr_absent '=' (b :: r1) _ heq hr0 (by decide)]
        have hspec : spec_env_names ((b :: r1) :: rest) = [] := by
          have : ¬ ('=' = b ∨ '=' ∈ r1) := by simpa using heq
          simp [spec_env_names, List.takeWhile, hbeq, this]
        simp [hspec, listingFrom]


/-! ## The table-building loops -/

theorem glob_impl_loop_spec (g : globber) (files : List String) :
    ∀ (i : Int) (pre : List LuaValue) (t : LuaTable) (c : List OsCall),
      (∀ e ∈ t, e.1 < i) →
      glob_impl_loop g files i ⟨pre ++ [LuaValue.table t], c⟩
        = some ⟨pre ++ [LuaValue.table (t ++ listingFrom i 1 files)],
            c ++ List.replicate (files.length + 1) (OsCall.globber_next g)⟩ := by
  induction files with
  | nil =>
    intro i pre t c _
    simp [glob_impl_loop, listingFrom, lua_State.log]
  | cons file rest ih =>
    intro i pre t c ht
    unfold glob_impl_loop
    have hlog : (lua_State.log ⟨pre ++ [LuaValue.table t], c⟩ (OsCall.globber_next g))
        = ⟨pre ++ [LuaValue.table t], c ++ [OsCall.globber_next g]⟩ := rfl
    rw [hlog, push_rawseti_fresh pre t _ i file ht]
    simp only []
    rw [ih (i + 1) pre _ _ (keys_lt_snoc t i (i + 1) _ ht (by omega))]
    simp [listingFrom, List.replicate_succ]

theorem get_aliases_loop_spec (recs : List (List Char)) (h0 : ∀ r ∈ recs, '\x00' ∉ r)
    (tail : List Char) :
    ∀ (fuel : Nat) (p : List Char) (i : Int) (pre : List LuaValue) (t : LuaTable)
      (c : List OsCall), recs.length < fuel → (∀ e ∈ t, e.1 < i) →
      get_aliases_loop fuel (p ++ (encodeRecords recs ++ tail))
          (p.length + (encodeRecords recs).length) p.length i ⟨pre ++ [LuaValue.table t], c⟩
        = some ⟨pre ++ [LuaValue.table (t ++ listingFrom i 2 (spec_alias_names recs))], c⟩ := by
  induction recs with
  | nil =>
    intro fuel p i pre t c hf ht
    obtain ⟨fuel, rfl⟩ : ∃ f, fuel = f + 1 := ⟨fuel - 1, by simp at hf; omega⟩
    simp [get_aliases_loop, encodeRecords, spec_alias_names, listingFrom]
  | cons r rest ih =>
    intro fuel p i pre t c hf ht
    obtain ⟨fuel, rfl⟩ : ∃ f, fuel = f + 1 := ⟨fuel - 1, by simp at hf; omega⟩
    have hf1 : rest.length < fuel := by simp at hf; omega
    have h0r : ∀ x ∈ rest, '\x00' ∉ x := fun x hx => h0 x (List.mem_cons_of_mem _ hx)
    have hr0 := h0 r (List.mem_cons_self _ _)
    have hlt : p.length < p.length + (encodeRecords (r :: rest)).length := by
      simp [encodeRecords]
    have hmem : p ++ (encodeRecords (r :: rest) ++ tail)
        = p ++ (r ++ '\x00' :: (encodeRecords rest ++ tail)) := by
      simp [encodeRecords]
    unfold get_aliases_loop
    rw [if_pos hlt, hmem]
    by_cases heq : '=' ∈ r
    · obtain ⟨value, hv⟩ := record_split '=' r heq
      have hspec : spec_alias_names (r :: rest) = recordName r :: spec_alias_names rest := by
        simp [spec_alias_names, List.takeWhile, heq]
      have hn1 := takeWhile_not_mem '=' r
      have hname : recordName r = String.mk (r.takeWhile (fun x => decide (x ≠ '='))) := rfl
      rw [hspec, hname]
      have hsize : p.length + (encodeRecords (r :: rest)).length
          = (p ++ r ++ ['\x00']).length + (encodeRecords rest).length := by
        simp [encodeRecords]; omega
      rw [hsize]
      generalize r.takeWhile (fun x => decide (x ≠ '=')) = name at hv hn1
      have hn0 : '\x00' ∉ name := fun e => hr0 (by rw [hv]; simp [e])
      have hv0 : '\x00' ∉ value := fun e => hr0 (by rw [hv]; simp [e])
      subst hv
      have hm1 : p ++ ((name ++ '=' :: value) ++ '\x00' :: (encodeRecords rest ++ tail))
          = p ++ (name ++ '=' :: (value ++ '\x00' :: (encodeRecords rest ++ tail))) := by
        simp
      rw [hm1, strchr_at _ _ _ (by simp), c_strchr_found '=' name _ hn1 hn0]
      simp only [Option.map_some']
      have hpush : lua_pushlstring ⟨pre ++ [LuaValue.table t], c⟩
          (p ++ (name ++ '=' :: (value ++ '\x00' :: (encodeRecords rest ++ tail)))) p.length
          (p.length + name.length - p.length)
          = lua_pushstring ⟨pre ++ [LuaValue.table t], c⟩ (String.mk name) := by
        simp [lua_pushlstring]
      rw [hpush, push_rawseti_fresh pre t c i _ ht]
      simp only []
      have hm2 : p ++ (name ++ '=' :: (value ++ '\x00' :: (encodeRecords rest ++ tail)))
          = (p ++ name ++ ['=']) ++ (value ++ '\x00' :: (encodeRecords rest ++ tail)) := by
        simp
      have hp2 : p.length + name.length + 1 = (p ++ name ++ ['=']).length := by
        simp [Nat.add_assoc]
      rw [hm2, hp2, strlen_at _ _ (by simp), c_strlen_record _ _ hv0]
      simp only []
      have hm3 : (p ++ name ++ ['=']) ++ (value ++ '\x00' :: (encodeRecords rest ++ tail))
          = (p ++ (name ++ '=' :: value) ++ ['\x00']) ++ (encodeRecords rest ++ tail) := by
        simp
      have hp3 : (p ++ name ++ ['=']).length + value.length + 1
          = (p ++ (name ++ '=' :: value) ++ ['\x00']).length := by
        simp only [List.length_append, List.length_cons, List.length_nil]; omega
      rw [hm3, hp3, ih h0r fuel _ (i + 1 + 1) pre _ c hf1
        (keys_lt_snoc t i (i + 1 + 1) _ ht (by omega))]
      have : i + 1 + 1 = i + 2 := by ring
      simp [listingFrom, this]
    · rw [strchr_at _ _ _ (by simp), c_strchr_absent '=' r _ heq hr0 (by decide)]
      have hspec : spec_alias_names (r :: rest) = [] := by
        simp [spec_alias_names, List.takeWhile, heq]
      simp [hspec, listingFrom]


/-! ## The fuel of the walks is only a bound -/

theorem strchr_ge (mem : List Char) (p : Nat) (ch : Char) (q : Nat)
    (h : strchr mem p ch = some (some q)) : p ≤ q := by
  unfold strchr at h
  split at h
  · cases hc : c_strchr ch (List.drop p mem) with
    | none => rw [hc] at h; simp at h
    | some o =>
      cases o with
      | none => rw [hc] at h; simp at h
      | some k =>
        rw [hc] at h
        simp only [Option.map_some', Option.some.injEq] at h
        omega
  · cases h

/-- The fuel of the environment walk is only a bound: a walk that finishes
with some fuel finishes with the same result with any fuel above the number
of bytes left in the block. -/
theorem get_env_names_loop_fuel :
    ∀ (fuel : Nat) (mem : List Char) (strings : Nat) (i : Int) (st st' : lua_State),
      get_env_names_loop fuel mem strings i st = some st' →
      ∀ fuel', mem.length - strings < fuel' →
        get_env_names_loop fuel' mem strings i st = some st' := by
  intro fuel
  induction fuel with
  | zero => intro mem strings i st st' h; simp [get_env_names_loop] at h
  | succ fuel ih =>
    intro mem strings i st st' h fuel' hf
    obtain ⟨fuel', rfl⟩ : ∃ f, fuel' = f + 1 := ⟨fuel' - 1, by omega⟩
    unfold get_env_names_loop at h ⊢
    cases hb : mem[strings]? with
    | none => rw [hb] at h; cases h
    | some b =>
      have hlt : strings < mem.length := by
        by_contra hge
        rw [List.getElem?_eq_none (by omega)] at hb
        cases hb
      rw [hb] at h
      simp only at h ⊢
      by_cases h0 : b = '\x00'
      · rw [if_pos h0] at h ⊢
        exact h
      · rw [if_neg h0] at h ⊢
        by_cases he : b = '='
        · rw [if_pos he] at h ⊢
          cases hs : strlen mem strings with
          | none => rw [hs] at h; cases h
          | some n =>
            rw [hs] at h
            exact ih _ _ _ _ _ h _ (by omega)
        · rw [if_neg he] at h ⊢
          cases hc : strchr mem strings '=' with
          | none => rw [hc] at h; cases h
          | some o =>
            cases o with
            | none => rw [hc] at h; exact h
            | some eq =>
              have hge := strchr_ge mem strings '=' eq hc
              rw [hc] at h
              simp only at h ⊢
              cases hn : c_str (mem.set eq '\x00') strings with
              | none => rw [hn] at h; cases h
              | some name =>
                rw [hn] at h
                simp only at h ⊢
                cases hr : lua_rawseti (lua_pushstring st name) (-2) i with
                | none => rw [hr] at h; cases h
                | some st1 =>
                  rw [hr] at h
                  simp only at h ⊢
                  cases hs : strlen (mem.set eq '\x00') (eq + 1) with
                  | none => rw [hs] at h; cases h
                  | some n =>
                    rw [hs] at h
                    exact ih _ _ _ _ _ h _ (by simp only [List.length_set]; omega)

/-- The fuel of the alias walk is only a bound, in the same sense. -/
theorem get_aliases_loop_fuel :
    ∀ (fuel : Nat) (buffer : List Char) (buffer_size a : Nat) (i : Int) (st st' : lua_State),
      get_aliases_loop fuel buffer buffer_size a i st = some st' →
      ∀ fuel', buffer.length - a < fuel' →
        get_aliases_loop fuel' buffer buffer_size a i st = some st' := by
  intro fuel
  induction fuel with
  | zero => intro buffer buffer_size a i st st' h; simp [get_aliases_loop] at h
  | succ fuel ih =>
    intro buffer buffer_size a i st st' h fuel' hf
    obtain ⟨fuel', rfl⟩ : ∃ f, fuel' = f + 1 := ⟨fuel' - 1, by omega⟩
    unfold get_aliases_loop at h ⊢
    by_cases hlt : a < buffer_size
    · rw [if_pos hlt] at h ⊢
      cases hc : strchr buffer a '=' with
      | none => rw [hc] at h; cases h
      | some o =>
        cases o with
        | none => rw [hc] at h; exact h
        | some c =>
          have hge := strchr_ge buffer a '=' c hc
          have hin : a < buffer.length := by
            unfold strchr at hc
            by_contra hn
            rw [if_neg hn] at hc
            cases hc
          rw [hc] at h
          simp only at h ⊢
          cases hr : lua_rawseti (lua_pushlstring st buffer a (c - a)) (-2) i with
          | none => rw [hr] at h; cases h
          | some st1 =>
            rw [hr] at h
            simp only at h ⊢
            cases hs : strlen buffer (c + 1) with
            | none => rw [hs] at h; cases h
            | some n =>
              rw [hs] at h
              exact ih _ _ _ _ _ _ h _ (by omega)
    · rw [if_neg hlt] at h ⊢
      exact h

/-- The fuel `get_env_names` supplies is enough whenever any fuel is. -/
theorem get_env_names_fuel_adequate (fuel : Nat) (root : List Char) (i : Int)
    (st st' : lua_State) (h : get_env_names_loop fuel root 0 i st = some st') :
    get_env_names_loop (root.length + 1) root 0 i st = some st' :=
  get_env_names_loop_fuel fuel root 0 i st st' h _ (by omega)

/-- The fuel `get_aliases` supplies is enough whenever any fuel is. -/
theorem get_aliases_fuel_adequate (fuel : Nat) (buffer : List Char) (buffer_size : Nat)
    (i : Int) (st st' : lua_State)
    (h : get_aliases_loop fuel buffer buffer_size 0 i st = some st') :
    get_aliases_loop (buffer.length + 1) buffer buffer_size 0 i st = some st' :=
  get_aliases_loop_fuel fuel buffer buffer_size 0 i st st' h _ (by omega)

/-! ## Results and listings -/

theorem lua_results_append (pre l : List LuaValue) (c : List OsCall) (n : Nat)
    (hn : l.length = n) : lua_results ⟨pre ++ l, c⟩ n = l := by
  subst hn
  simp [lua_results]

theorem listingFrom_values (names : List String) :
    ∀ i step : Int, (listingFrom i step names).values = names.map LuaValue.string := by
  induction names with
  | nil => intro i step; rfl
  | cons s rest ih =>
    intro i step
    have := ih (i + step) step
    simp only [LuaTable.values] at this
    simp [listingFrom, LuaTable.values, this]

theorem listingFrom_keys (names : List String) :
    ∀ i step : Int, (listingFrom i step names).keys
      = (List.range names.length).map (fun (k : Nat) => i + step * (k : Int)) := by
  induction names with
  | nil => intro i step; rfl
  | cons s rest ih =>
    intro i step
    have := ih (i + step) step
    simp only [LuaTable.keys] at this
    simp only [listingFrom, LuaTable.keys, List.map_cons, List.length_cons, this,
      List.range_succ_eq_map, List.map_map]
    simp only [Nat.cast_zero, mul_zero, add_zero, List.cons.injEq, true_and]
    apply List.map_congr_left
    intro k _
    simp only [Function.comp, Nat.cast_succ]
    ring

theorem listing_keys_oneTo (names : List String) :
    (listingFrom 1 1 names).keys = oneTo names.length := by
  rw [listingFrom_keys, oneTo]
  apply List.map_congr_left
  intro k _
  ring

theorem rawgeti_listingFrom (names : List String) :
    ∀ i j : Int, LuaTable.rawgeti (listingFrom i 1 names) j
      = if i ≤ j then ((names[(j - i).toNat]?).map LuaValue.string).getD LuaValue.nil
        else LuaValue.nil := by
  induction names with
  | nil => intro i j; simp [listingFrom, LuaTable.rawgeti]
  | cons s rest ih =>
    intro i j
    simp only [listingFrom, LuaTable.rawgeti]
    by_cases hij : i = j
    · subst hij
      simp
    · rw [if_neg hij, ih (i + 1) j]
      by_cases hle : i ≤ j
      · have h1 : i + 1 ≤ j := by omega
        have h2 : (j - i).toNat = (j - (i + 1)).toNat + 1 := by omega
        rw [if_pos h1, if_pos hle, h2]
        simp
      · have h1 : ¬ (i + 1 ≤ j) := by omega
        rw [if_neg h1, if_neg hle]

/-- Reading a listing: key `j` holds the `j`-th name when `1 ≤ j ≤ n` and
reads as `nil` otherwise. -/
theorem rawgeti_listing (names : List String) (j : Int) :
    LuaTable.rawgeti (listingFrom 1 1 names) j
      = if 1 ≤ j then ((names[(j - 1).toNat]?).map LuaValue.string).getD LuaValue.nil
        else LuaValue.nil :=
  rawgeti_listingFrom names 1 j

theorem length_le_encodeRecords (recs : List (List Char)) :
    recs.length ≤ (encodeRecords recs).length := by
  induction recs with
  | nil => simp [encodeRecords]
  | cons r rest ih => simp [encodeRecords]; omega

/-! ## What the table-building adapters return -/

theorem get_env_names_run (w : World) (st : lua_State) (recs : List (List Char))
    (tail : List Char) (hwf : WellFormedRecords recs)
    (hblock : w.GetEnvironmentStrings = some (envBlock recs ++ tail)) :
    get_env_names w st
      = some (⟨st.stack ++ [LuaValue.table (listingFrom 1 1 (spec_env_names recs))],
          st.calls ++ [OsCall.GetEnvironmentStrings, OsCall.FreeEnvironmentStrings]⟩, 1) := by
  have hmem : envBlock recs ++ tail = encodeRecords recs ++ '\x00' :: tail := by
    simp [envBlock]
  have hloop := get_env_names_loop_spec recs hwf tail
    ((encodeRecords recs ++ '\x00' :: tail).length + 1) [] 1 st.stack []
    (st.calls ++ [OsCall.GetEnvironmentStrings])
    (by have := length_le_encodeRecords recs; simp; omega) (by simp)
  simp only [List.nil_append, List.length_nil] at hloop
  unfold get_env_names
  simp only [hblock]
  have hst : (lua_createtable st).log OsCall.GetEnvironmentStrings
      = ⟨st.stack ++ [LuaValue.table []], st.calls ++ [OsCall.GetEnvironmentStrings]⟩ := rfl
  rw [hst, hmem, hloop]
  simp [lua_State.log]

theorem glob_impl_run (w : World) (st st1 : lua_State) (mask : String) (dirs_only : Bool)
    (h : get_string w st 1 = (some mask, st1)) :
    glob_impl w st dirs_only
      = some (⟨st1.stack ++ [LuaValue.table (listingFrom 1 1
            (w.globber_next ⟨mask, !dirs_only, w.g_glob_hidden, w.g_glob_system⟩))],
          st1.calls ++ List.replicate
            ((w.globber_next ⟨mask, !dirs_only, w.g_glob_hidden, w.g_glob_system⟩).length + 1)
            (OsCall.globber_next ⟨mask, !dirs_only, w.g_glob_hidden, w.g_glob_system⟩)⟩, 1) := by
  unfold glob_impl
  simp only [h]
  have hst : lua_createtable st1 = ⟨st1.stack ++ [LuaValue.table []], st1.calls⟩ := rfl
  rw [hst, glob_impl_loop_spec _ _ 1 st1.stack [] st1.calls (by simp)]
  simp

theorem get_aliases_run (w : World) (st : lua_State) (recs : List (List Char))
    (tail : List Char) (hok : w.get_file_name.1 = true)
    (hlen : w.GetConsoleAliasesLength (w.get_name w.get_file_name.2) ≠ 0)
    (hret : (w.GetConsoleAliases (w.get_name w.get_file_name.2)).1 ≠ 0)
    (h0 : ∀ r ∈ recs, '\x00' ∉ r)
    (hbuf : (w.GetConsoleAliases (w.get_name w.get_file_name.2)).2 = encodeRecords recs ++ tail)
    (hsize : w.GetConsoleAliasesLength (w.get_name w.get_file_name.2)
      = (encodeRecords recs).length) :
    get_aliases w st
      = some (⟨st.stack ++ [LuaValue.table (listingFrom 1 2 (spec_alias_names recs))],
          st.calls ++ [OsCall.get_file_name,
            OsCall.GetConsoleAliasesLength (w.get_name w.get_file_name.2),
            OsCall.GetConsoleAliases (w.get_name w.get_file_name.2)]⟩, 1) := by
  have hloop := get_aliases_loop_spec recs h0 tail ((encodeRecords recs ++ tail).length + 1) []
    1 st.stack [] (st.calls ++ [OsCall.get_file_name,
            OsCall.GetConsoleAliasesLength (w.get_name w.get_file_name.2),
            OsCall.GetConsoleAliases (w.get_name w.get_file_name.2)])
    (by have := length_le_encodeRecords recs; simp; omega) (by simp)
  simp only [List.nil_append, List.length_nil, Nat.zero_add] at hloop
  unfold get_aliases
  have hlen2 : ¬ ((encodeRecords recs).length = 0) := by rw [← hsize]; exact hlen
  simp only [hok, Bool.not_true, if_neg hret, hbuf, hsize, if_neg hlen2]
  have hst : (((lua_createtable st).log OsCall.get_file_name).log
        (OsCall.GetConsoleAliasesLength (w.get_name w.get_file_name.2))).log
        (OsCall.GetConsoleAliases (w.get_name w.get_file_name.2))
      = ⟨st.stack ++ [LuaValue.table []], st.calls ++ [OsCall.get_file_name,
            OsCall.GetConsoleAliasesLength (w.get_name w.get_file_name.2),
            OsCall.GetConsoleAliases (w.get_name w.get_file_name.2)]⟩ := by
    simp [lua_createtable, lua_push, lua_State.log]
  simp only [Bool.false_eq_true, if_false]
  rw [hst, hloop]


theorem lua_results_push (st : lua_State) (v : LuaValue) :
    lua_results (lua_push st v) 1 = [v] :=
  lua_results_append st.stack [v] st.calls 1 rfl

theorem lua_results_triple (st : lua_State) :
    lua_results (lua_pushinteger (lua_pushstring (lua_pushnil st) "error") 1) 3
      = [LuaValue.nil, LuaValue.string "error", LuaValue.integer 1] := by
  have := lua_results_append st.stack
    [LuaValue.nil, LuaValue.string "error", LuaValue.integer 1] st.calls 3 rfl
  simpa [lua_pushinteger, lua_pushstring, lua_pushnil, lua_push] using this


theorem push_rawseti (pre : List LuaValue) (t : LuaTable) (c : List OsCall) (i : Int)
    (s : String) :
    lua_rawseti (lua_pushstring ⟨pre ++ [LuaValue.table t], c⟩ s) (-2) i
      = some ⟨pre ++ [LuaValue.table (LuaTable.rawseti t i (LuaValue.string s))], c⟩ := by
  have : lua_pushstring ⟨pre ++ [LuaValue.table t], c⟩ s
      = ⟨pre ++ [LuaValue.table t, LuaValue.string s], c⟩ := by
    simp [lua_pushstring, lua_push]
  rw [this, lua_rawseti_neg_two]

/-- Whatever the block holds, a walk of `get_env_names` that returns leaves
the stack as it found it, with the table on top updated. -/
theorem get_env_names_loop_shape :
    ∀ (fuel : Nat) (mem : List Char) (strings : Nat) (i : Int) (pre : List LuaValue)
      (t : LuaTable) (c : List OsCall) (st' : lua_State),
      get_env_names_loop fuel mem strings i ⟨pre ++ [LuaValue.table t], c⟩ = some st' →
      ∃ t', st' = ⟨pre ++ [LuaValue.table t'], c⟩ := by
  intro fuel
  induction fuel with
  | zero => intro mem strings i pre t c st' h; simp [get_env_names_loop] at h
  | succ fuel ih =>
    intro mem strings i pre t c st' h
    simp only [get_env_names_loop, push_rawseti] at h
    split at h
    · cases h
    · split at h
      · exact ⟨t, (Option.some.inj h).symm⟩
      · split at h
        · split at h
          · exact ih _ _ _ _ _ _ _ h
          · cases h
        · split at h
          · cases h
          · exact ⟨t, (Option.some.inj h).symm⟩
          · split at h
            · cases h
            · split at h
              · exact ih _ _ _ _ _ _ _ h
              · cases h

/-- Whatever the buffer holds, a walk of `get_aliases` that returns leaves
the stack as it found it, with the table on top updated. -/
theorem get_aliases_loop_shape :
    ∀ (fuel : Nat) (buffer : List Char) (buffer_size a : Nat) (i : Int)
      (pre : List LuaValue) (t : LuaTable) (c : List OsCall) (st' : lua_State),
      get_aliases_loop fuel buffer buffer_size a i ⟨pre ++ [LuaValue.table t], c⟩ = some st' →
      ∃ t', st' = ⟨pre ++ [LuaValue.table t'], c⟩ := by
  intro fuel
  induction fuel with
  | zero => intro buffer buffer_size a i pre t c st' h; simp [get_aliases_loop] at h
  | succ fuel ih =>
    intro buffer buffer_size a i pre t c st' h
    simp only [get_aliases_loop, lua_pushlstring, push_rawseti] at h
    split at h
    · split at h
      · cases h
      · exact ⟨t, (Option.some.inj h).symm⟩
      · split at h
        · exact ih _ _ _ _ _ _ _ _ h
        · cases h
    · exact ⟨t, (Option.some.inj h).symm⟩


/-! ## Stack depth of every adapter -/

theorem KeepsDepth.of_returns {f : World → lua_State → Option (lua_State × Nat)} {w : World}
    {st : lua_State} (h : KeepsDepth f w st) :
    ∀ st' n, f w st = some (st', n) → st'.stack.length = st.stack.length + n := by
  obtain ⟨st0, n0, h0, hd⟩ := h
  intro st' n h1
  rw [h0] at h1
  simp only [Option.some.injEq, Prod.mk.injEq] at h1
  obtain ⟨rfl, rfl⟩ := h1
  exact hd

theorem KeepsDepth.returns {f : World → lua_State → Option (lua_State × Nat)} {w : World}
    {st : lua_State} (h : KeepsDepth f w st) : ∃ st' n, f w st = some (st', n) := by
  obtain ⟨st0, n0, h0, _⟩ := h
  exact ⟨st0, n0, h0⟩

/-- Whatever the environment block holds, a call of `get_env_names` that
returns declares one result and has the stack one value deeper, with a table
on top. -/
theorem get_env_names_returns (w : World) (st st' : lua_State) (n : Nat)
    (h : get_env_names w st = some (st', n)) :
    n = 1 ∧ ∃ t, st'.stack = st.stack ++ [LuaValue.table t] := by
  unfold get_env_names at h
  simp only at h
  split at h
  · simp only [Option.some.injEq, Prod.mk.injEq] at h
    obtain ⟨rfl, rfl⟩ := h
    exact ⟨rfl, [], rfl⟩
  · split at h
    · rename_i st2 hloop
      simp only [Option.some.injEq, Prod.mk.injEq] at h
      obtain ⟨rfl, rfl⟩ := h
      have hst : (lua_createtable st).log OsCall.GetEnvironmentStrings
          = ⟨st.stack ++ [LuaValue.table []], st.calls ++ [OsCall.GetEnvironmentStrings]⟩ := rfl
      rw [hst] at hloop
      obtain ⟨t', ht'⟩ := get_env_names_loop_shape _ _ _ _ _ _ _ _ hloop
      subst ht'
      exact ⟨rfl, t', rfl⟩
    · cases h

theorem set_current_dir_depth (w : World) (st : lua_State) :
    KeepsDepth set_current_dir w st := by
  have hl := get_string_stack_length w st 1
  unfold KeepsDepth set_current_dir
  split <;> rename_i heq <;> rw [heq] at hl <;>
    exact ⟨_, _, rfl, by simpa [lua_pushboolean, lua_push, lua_State.log] using hl⟩

theorem get_current_dir_depth (w : World) (st : lua_State) :
    KeepsDepth get_current_dir w st :=
  ⟨_, _, rfl, by simp [lua_pushstring, lua_push, lua_State.log]⟩

theorem make_dir_depth (w : World) (st : lua_State) : KeepsDepth make_dir w st := by
  have hl := get_string_stack_length w st 1
  unfold KeepsDepth make_dir
  split <;> rename_i heq <;> rw [heq] at hl <;>
    exact ⟨_, _, rfl, by simpa [lua_pushboolean, lua_push, lua_State.log] using hl⟩

theorem remove_dir_depth (w : World) (st : lua_State) : KeepsDepth remove_dir w st := by
  have hl := get_string_stack_length w st 1
  unfold KeepsDepth remove_dir
  split <;> rename_i heq <;> rw [heq] at hl <;>
    exact ⟨_, _, rfl, by simpa [lua_pushboolean, lua_push, lua_State.log] using hl⟩

theorem is_dir_depth (w : World) (st : lua_State) : KeepsDepth is_dir w st := by
  have hl := get_string_stack_length w st 1
  unfold KeepsDepth is_dir
  split <;> rename_i heq <;> rw [heq] at hl <;>
    exact ⟨_, _, rfl, by simpa [lua_pushboolean, lua_push, lua_State.log] using hl⟩

theorem is_file_depth (w : World) (st : lua_State) : KeepsDepth is_file w st := by
  have hl := get_string_stack_length w st 1
  unfold KeepsDepth is_file
  split <;> rename_i heq <;> rw [heq] at hl <;>
    exact ⟨_, _, rfl, by simpa [lua_pushboolean, lua_push, lua_State.log] using hl⟩

theorem unlink_depth (w : World) (st : lua_State) : KeepsDepth unlink w st := by
  have hl := get_string_stack_length w st 1
  unfold KeepsDepth unlink
  split <;> rename_i heq <;> rw [heq] at hl
  · exact ⟨_, _, rfl, by simpa using hl⟩
  · simp only
    split
    · exact ⟨_, _, rfl, by simpa [lua_pushboolean, lua_push, lua_State.log] using hl⟩
    · exact ⟨_, _, rfl, by
        simpa [lua_pushinteger, lua_pushstring, lua_pushnil, lua_push, lua_State.log] using hl⟩

theorem move_depth (w : World) (st : lua_State) : KeepsDepth move w st := by
  have hl1 := get_string_stack_length w st 1
  have hl2 := get_string_stack_length w (get_string w st 1).2 2
  cases hg1 : get_string w st 1 with
  | mk o1 st1 =>
    rw [hg1] at hl1 hl2
    cases hg2 : get_string w st1 2 with
    | mk o2 st2 =>
      rw [hg2] at hl2
      simp only at hl1 hl2
      have hl : st2.stack.length = st.stack.length := by rw [hl2, hl1]
      have hfail : ∀ s : lua_State, s.stack.length = st.stack.length →
          (lua_pushinteger (lua_pushstring (lua_pushnil s) "error") 1).stack.length
            = st.stack.length + 3 := fun s hs => by
        simpa [lua_pushinteger, lua_pushstring, lua_pushnil, lua_push] using hs
      cases o1 with
      | none => exact ⟨_, 3, by simp [move, hg1, hg2], hfail st2 hl⟩
      | some src =>
        cases o2 with
        | none => exact ⟨_, 3, by simp [move, hg1, hg2], hfail st2 hl⟩
        | some dest =>
          cases hmv : w.move src dest with
          | false =>
            exact ⟨lua_pushinteger (lua_pushstring
                (lua_pushnil (st2.log (OsCall.move src dest))) "error") 1, 3,
              by simp [move, hg1, hg2, hmv], hfail _ hl⟩
          | true =>
            exact ⟨lua_pushboolean (st2.log (OsCall.move src dest)) true, 1,
              by simp [move, hg1, hg2, hmv], by
              simpa [lua_pushboolean, lua_push, lua_State.log] using hl⟩

theorem copy_depth (w : World) (st : lua_State) : KeepsDepth copy w st := by
  have hl1 := get_string_stack_length w st 1
  have hl2 := get_string_stack_length w (get_string w st 1).2 2
  cases hg1 : get_string w st 1 with
  | mk o1 st1 =>
    rw [hg1] at hl1 hl2
    cases hg2 : get_string w st1 2 with
    | mk o2 st2 =>
      rw [hg2] at hl2
      simp only at hl1 hl2
      have hl : st2.stack.length = st.stack.length := by rw [hl2, hl1]
      cases o1 with
      | none => exact ⟨st2, 0, by simp [copy, hg1, hg2], by simpa using hl⟩
      | some src =>
        cases o2 with
        | none => exact ⟨st2, 0, by simp [copy, hg1, hg2], by simpa using hl⟩
        | some dest =>
          exact ⟨lua_pushboolean (st2.log (OsCall.copy src dest)) (w.copy src dest == true), 1,
            by simp [copy, hg1, hg2], by
            simpa [lua_pushboolean, lua_push, lua_State.log] using hl⟩

theorem glob_impl_depth (w : World) (st : lua_State) (dirs_only : Bool) :
    KeepsDepth (fun w st => glob_impl w st dirs_only) w st := by
  have hl := get_string_stack_length w st 1
  cases hg : get_string w st 1 with
  | mk o st1 =>
    rw [hg] at hl
    simp only at hl
    cases o with
    | none => exact ⟨st1, 0, by simp [glob_impl, hg], by simpa using hl⟩
    | some mask =>
      exact ⟨_, _, glob_impl_run w st st1 mask dirs_only hg, by simpa using hl⟩

theorem get_env_depth (w : World) (st : lua_State) : KeepsDepth get_env w st := by
  have hl := get_string_stack_length w st 1
  unfold KeepsDepth get_env
  split <;> rename_i heq <;> rw [heq] at hl
  · exact ⟨_, _, rfl, by simpa using hl⟩
  · simp only
    split
    · exact ⟨_, _, rfl, by simpa [lua_State.log] using hl⟩
    · exact ⟨_, _, rfl, by simpa [lua_pushstring, lua_push, lua_State.log] using hl⟩

theorem get_env_names_depth (w : World) (hw : w.EnvWellFormed) (st : lua_State) :
    ∃ st', get_env_names w st = some (st', 1) ∧ st'.stack.length = st.stack.length + 1 := by
  rcases hw with hnone | ⟨recs, tail, hwf, hblock⟩
  · exact ⟨(lua_createtable st).log OsCall.GetEnvironmentStrings,
      by simp [get_env_names, hnone], by simp [lua_createtable, lua_push, lua_State.log]⟩
  · exact ⟨_, get_env_names_run w st recs tail hwf hblock, by simp⟩

theorem get_host_depth (w : World) (st : lua_State) : KeepsDepth get_host w st := by
  unfold KeepsDepth get_host
  simp only
  split
  · exact ⟨_, _, rfl, by simp [lua_State.log]⟩
  · exact ⟨_, _, rfl, by simp [lua_pushstring, lua_push, lua_State.log]⟩

theorem get_aliases_depth (w : World) (hw : w.AliasesWellFormed) (st : lua_State) :
    ∃ st', get_aliases w st = some (st', 1) ∧ st'.stack.length = st.stack.length + 1 := by
  cases hok : w.get_file_name.1 with
  | false =>
    exact ⟨(lua_createtable st).log OsCall.get_file_name, by simp [get_aliases, hok],
      by simp [lua_createtable, lua_push, lua_State.log]⟩
  | true =>
    by_cases hlen : w.GetConsoleAliasesLength (w.get_name w.get_file_name.2) = 0
    · exact ⟨((lua_createtable st).log OsCall.get_file_name).log
        (OsCall.GetConsoleAliasesLength (w.get_name w.get_file_name.2)),
        by simp [get_aliases, hok, hlen], by simp [lua_createtable, lua_push, lua_State.log]⟩
    · by_cases hret : (w.GetConsoleAliases (w.get_name w.get_file_name.2)).1 = 0
      · exact ⟨(((lua_createtable st).log OsCall.get_file_name).log
          (OsCall.GetConsoleAliasesLength (w.get_name w.get_file_name.2))).log
          (OsCall.GetConsoleAliases (w.get_name w.get_file_name.2)),
          by simp [get_aliases, hok, hlen, hret],
          by simp [lua_createtable, lua_push, lua_State.log]⟩
      · obtain ⟨recs, tail, h0, hbuf, hsize⟩ := hw hok hlen hret
        exact ⟨_, get_aliases_run w st recs tail hok hlen hret h0 hbuf hsize, by simp⟩

/-! ## The claims -/

/-- C4: `unlink` returns zero results and leaves the state untouched (so
`os::unlink` is not invoked) when slot 1 holds no string; exactly one result,
`true`, when `os::unlink(path)` succeeds; exactly the three results `nil`,
`"error"`, `1` when it fails; and the boolean `false` is never among its
results. -/
theorem unlink_contract (w : World) (st : lua_State) :
    ((get_string w st 1).1 = none → unlink w st = some (st, 0)) ∧
    (∀ path, (get_string w st 1).1 = some path → w.unlink path = true →
      ∃ st', unlink w st = some (st', 1) ∧ lua_results st' 1 = [LuaValue.boolean true] ∧
        st'.calls = st.calls ++ [OsCall.unlink path]) ∧
    (∀ path, (get_string w st 1).1 = some path → w.unlink path = false →
      ∃ st', unlink w st = some (st', 3) ∧
        lua_results st' 3 = [LuaValue.nil, LuaValue.string "error", LuaValue.integer 1] ∧
        st'.calls = st.calls ++ [OsCall.unlink path]) ∧
    (∀ st' n, unlink w st = some (st', n) → LuaValue.boolean false ∉ lua_results st' n) := by
  have hcalls := get_string_calls w st 1
  have hnone := get_string_none w st 1
  cases hg : get_string w st 1 with
  | mk o st1 =>
    rw [hg] at hcalls hnone
    simp only at hcalls hnone
    cases o with
    | none =>
      have hst : st1 = st := hnone rfl
      subst hst
      refine ⟨fun _ => ?_, fun path h => by simp at h, fun path h => by simp at h, ?_⟩
      · simp [unlink, hg]
      · intro st' n h
        simp only [unlink, hg, Option.some.injEq, Prod.mk.injEq] at h
        obtain ⟨rfl, rfl⟩ := h
        simp [lua_results]
    | some path =>
      refine ⟨fun h => by simp at h, ?_, ?_, ?_⟩
      · intro q hq hu
        simp only [Option.some.injEq] at hq
        subst hq
        refine ⟨_, by simp only [unlink, hg, hu, if_true]; rfl, ?_, ?_⟩
        · exact lua_results_push _ _
        · simp [lua_pushboolean, lua_push, lua_State.log, hcalls]
      · intro q hq hu
        simp only [Option.some.injEq] at hq
        subst hq
        refine ⟨_, by simp only [unlink, hg, hu]; rfl, ?_, ?_⟩
        · exact lua_results_triple _
        · simp [lua_pushinteger, lua_pushstring, lua_pushnil, lua_push, lua_State.log, hcalls]
      · intro st' n h
        simp only [unlink, hg] at h
        split at h
        · simp only [Option.some.injEq, Prod.mk.injEq] at h
          obtain ⟨rfl, rfl⟩ := h
          rw [lua_pushboolean, lua_results_push]
          simp
        · simp only [Option.some.injEq, Prod.mk.injEq] at h
          obtain ⟨rfl, rfl⟩ := h
          rw [lua_results_triple]
          simp

/-- Witness of C4 on the example host: no argument, an existing file, and
the path `does-not-exist`. -/
theorem unlink_contract_witness :
    unlink exampleWorld ⟨[], []⟩ = some (⟨[], []⟩, 0) ∧
    (∃ st', unlink exampleWorld ⟨[LuaValue.string "a.txt"], []⟩ = some (st', 1) ∧
      lua_results st' 1 = [LuaValue.boolean true] ∧ st'.calls = [] ++ [OsCall.unlink "a.txt"]) ∧
    (∃ st', unlink exampleWorld ⟨[LuaValue.string "does-not-exist"], []⟩ = some (st', 3) ∧
      lua_results st' 3 = [LuaValue.nil, LuaValue.string "error", LuaValue.integer 1] ∧
      st'.calls = [] ++ [OsCall.unlink "does-not-exist"]) :=
  ⟨(unlink_contract exampleWorld ⟨[], []⟩).1 rfl,
   (unlink_contract exampleWorld ⟨[LuaValue.string "a.txt"], []⟩).2.1 "a.txt" rfl rfl,
   (unlink_contract exampleWorld ⟨[LuaValue.string "does-not-exist"], []⟩).2.2.1
     "does-not-exist" rfl rfl⟩


/-- C3: `move` returns exactly one result, `true`, if and only if slots 1 and
2 both hold strings and `os::move(src, dest)` succeeds; in every other case it
returns exactly the three results `nil`, `"error"`, `1`; and when an argument
is absent the log of collaborator calls is unchanged, so `os::move` is not
invoked. -/
theorem move_contract (w : World) (st : lua_State) :
    ((∃ st', move w st = some (st', 1) ∧ lua_results st' 1 = [LuaValue.boolean true]) ↔
      ∃ src dest, (get_string w st 1).1 = some src ∧ (get_string w st 2).1 = some dest ∧
        w.move src dest = true) ∧
    ((¬ ∃ src dest, (get_string w st 1).1 = some src ∧ (get_string w st 2).1 = some dest ∧
        w.move src dest = true) →
      ∃ st', move w st = some (st', 3) ∧
        lua_results st' 3 = [LuaValue.nil, LuaValue.string "error", LuaValue.integer 1]) ∧
    (((get_string w st 1).1 = none ∨ (get_string w st 2).1 = none) →
      ∃ st', move w st = some (st', 3) ∧ st'.calls = st.calls) := by
  have hc1 := get_string_calls w st 1
  have hc2 := get_string_calls w (get_string w st 1).2 2
  have h21 := get_string_two_after_one w st
  cases hg1 : get_string w st 1 with
  | mk o1 st1 =>
    rw [hg1] at hc1 hc2 h21
    simp only at hc1 hc2 h21
    cases hg2 : get_string w st1 2 with
    | mk o2 st2 =>
      rw [hg2] at hc2 h21
      simp only at hc2 h21
      rw [← h21]
      have hfail : ∀ s : lua_State, s.calls = st.calls →
          ∃ st', some (lua_pushinteger (lua_pushstring (lua_pushnil s) "error") 1, 3)
              = some (st', 3) ∧
            lua_results st' 3 = [LuaValue.nil, LuaValue.string "error", LuaValue.integer 1] ∧
            st'.calls = st.calls := fun s hs =>
        ⟨_, rfl, lua_results_triple s, by
          simpa [lua_pushinteger, lua_pushstring, lua_pushnil, lua_push] using hs⟩
      cases o1 with
      | none =>
        have hm : move w st = some (lua_pushinteger (lua_pushstring (lua_pushnil st2) "error") 1, 3) := by
          simp [move, hg1, hg2]
        obtain ⟨st', he, hr, hcs⟩ := hfail st2 (by rw [hc2, hc1])
        rw [hm]
        refine ⟨⟨fun ⟨s, hs, _⟩ => by simp at hs, fun ⟨_, _, h, _⟩ => by simp at h⟩,
          fun _ => ⟨st', he, hr⟩, fun _ => ⟨st', he, hcs⟩⟩
      | some src =>
        cases o2 with
        | none =>
          have hm : move w st = some (lua_pushinteger (lua_pushstring (lua_pushnil st2) "error") 1, 3) := by
            simp [move, hg1, hg2]
          obtain ⟨st', he, hr, hcs⟩ := hfail st2 (by rw [hc2, hc1])
          rw [hm]
          refine ⟨⟨fun ⟨s, hs, _⟩ => by simp at hs, fun ⟨_, _, _, h, _⟩ => by simp at h⟩,
            fun _ => ⟨st', he, hr⟩, fun _ => ⟨st', he, hcs⟩⟩
        | some dest =>
          cases hmv : w.move src dest with
          | false =>
            have hm : move w st = some (lua_pushinteger (lua_pushstring
                (lua_pushnil (st2.log (OsCall.move src dest))) "error") 1, 3) := by
              simp [move, hg1, hg2, hmv]
            rw [hm]
            refine ⟨⟨fun ⟨s, hs, _⟩ => by simp at hs, ?_⟩,
              fun _ => ⟨_, rfl, lua_results_triple _⟩, fun h => by simp at h⟩
            rintro ⟨s, d, hs, hd, h⟩
            simp only [Option.some.injEq] at hs hd
            subst hs; subst hd
            rw [hmv] at h
            exact absurd h (by decide)
          | true =>
            have hm : move w st
                = some (lua_pushboolean (st2.log (OsCall.move src dest)) true, 1) := by
              simp [move, hg1, hg2, hmv]
            rw [hm]
            refine ⟨⟨fun _ => ⟨src, dest, rfl, rfl, hmv⟩,
              fun _ => ⟨_, rfl, lua_results_push _ _⟩⟩, ?_, fun h => by simp at h⟩
            intro hn
            exact absurd ⟨src, dest, rfl, rfl, hmv⟩ hn

/-- Witness of C3 on the example host: `os.move(nil, nil)`, a move that
succeeds and a move that fails. -/
theorem move_contract_witness :
    (∃ st', move exampleWorld ⟨[LuaValue.nil, LuaValue.nil], []⟩ = some (st', 3) ∧
      lua_results st' 3 = [LuaValue.nil, LuaValue.string "error", LuaValue.integer 1]) ∧
    (∃ st', move exampleWorld ⟨[LuaValue.nil, LuaValue.nil], []⟩ = some (st', 3) ∧
      st'.calls = []) ∧
    (∃ st', move exampleWorld ⟨[LuaValue.string "a.txt", LuaValue.string "c.txt"], []⟩
        = some (st', 1) ∧ lua_results st' 1 = [LuaValue.boolean true]) ∧
    (∃ st', move exampleWorld ⟨[LuaValue.string "b.txt", LuaValue.string "c.txt"], []⟩
        = some (st', 3) ∧
      lua_results st' 3 = [LuaValue.nil, LuaValue.string "error", LuaValue.integer 1]) :=
  ⟨(move_contract exampleWorld ⟨[LuaValue.nil, LuaValue.nil], []⟩).2.1
      (by rintro ⟨s, d, h, _⟩
          have h0 : (get_string exampleWorld ⟨[LuaValue.nil, LuaValue.nil], []⟩ 1).1 = none := rfl
          rw [h0] at h
          cases h),
   (move_contract exampleWorld ⟨[LuaValue.nil, LuaValue.nil], []⟩).2.2 (Or.inl rfl),
   (move_contract exampleWorld ⟨[LuaValue.string "a.txt", LuaValue.string "c.txt"], []⟩).1.2
      ⟨"a.txt", "c.txt", rfl, rfl, rfl⟩,
   (move_contract exampleWorld ⟨[LuaValue.string "b.txt", LuaValue.string "c.txt"], []⟩).2.1
      (by rintro ⟨s, d, h1, h2, h3⟩
          have e1 : s = "b.txt" := (Option.some.inj h1).symm
          subst e1
          have h0 : exampleWorld.move "b.txt" d = false := rfl
          rw [h0] at h3
          cases h3)⟩


/-- C10: for a path in slot 1, `is_dir` and `is_file` each return exactly one
boolean, the comparison of the path's type with the directory constant and
with the file constant; the two are never both true, and both are false when
the type is neither constant. -/
theorem is_dir_is_file_exclusive (w : World) (st : lua_State) (p : String)
    (h : (get_string w st 1).1 = some p) :
    ∃ st1 st2 d f,
      is_dir w st = some (st1, 1) ∧ lua_results st1 1 = [LuaValue.boolean d] ∧
      is_file w st = some (st2, 1) ∧ lua_results st2 1 = [LuaValue.boolean f] ∧
      (d = true ↔ w.get_path_type p = path_type.path_type_dir) ∧
      (f = true ↔ w.get_path_type p = path_type.path_type_file) ∧
      (d = true → f = false) ∧ (f = true → d = false) ∧
      (w.get_path_type p ≠ path_type.path_type_dir →
        w.get_path_type p ≠ path_type.path_type_file → d = false ∧ f = false) := by
  cases hg : get_string w st 1 with
  | mk o st1 =>
    rw [hg] at h
    simp only at h
    subst h
    refine ⟨lua_pushboolean (st1.log (OsCall.get_path_type p))
        (decide (w.get_path_type p = path_type.path_type_dir)),
      lua_pushboolean (st1.log (OsCall.get_path_type p))
        (decide (w.get_path_type p = path_type.path_type_file)),
      decide (w.get_path_type p = path_type.path_type_dir),
      decide (w.get_path_type p = path_type.path_type_file),
      by simp only [is_dir, hg], lua_results_push _ _,
      by simp only [is_file, hg], lua_results_push _ _, by simp, by simp, ?_, ?_, ?_⟩
    · intro hd
      have hd' : w.get_path_type p = path_type.path_type_dir := by simpa using hd
      simp [hd']
    · intro hf
      have hf' : w.get_path_type p = path_type.path_type_file := by simpa using hf
      simp [hf']
    · intro h1 h2
      simp [h1, h2]

/-- Witness of C10 on the example host, for the directory `sub`. -/
theorem is_dir_is_file_exclusive_witness :
    ∃ st1 st2 d f,
      is_dir exampleWorld ⟨[LuaValue.string "sub"], []⟩ = some (st1, 1) ∧
      lua_results st1 1 = [LuaValue.boolean d] ∧
      is_file exampleWorld ⟨[LuaValue.string "sub"], []⟩ = some (st2, 1) ∧
      lua_results st2 1 = [LuaValue.boolean f] ∧
      (d = true ↔ exampleWorld.get_path_type "sub" = path_type.path_type_dir) ∧
      (f = true ↔ exampleWorld.get_path_type "sub" = path_type.path_type_file) ∧
      (d = true → f = false) ∧ (f = true → d = false) ∧
      (exampleWorld.get_path_type "sub" ≠ path_type.path_type_dir →
        exampleWorld.get_path_type "sub" ≠ path_type.path_type_file → d = false ∧ f = false) :=
  is_dir_is_file_exclusive exampleWorld ⟨[LuaValue.string "sub"], []⟩ "sub" rfl

/-- C8: with a mask in slot 1, `glob_impl` returns exactly one result, a
table whose keys are `1..|s|` and whose value at key `k` is the `k`-th of the
paths `s` that the globber yields when configured with `files := !dirs_only`
and the current `glob-hidden` and `glob-system` toggles, in the globber's
order; every other key reads as `nil`. With no mask it returns zero results.
`glob_files` and `glob_dirs` are `glob_impl` with `dirs_only` false and
true. -/
theorem glob_impl_listing (w : World) (st : lua_State) (dirs_only : Bool) :
    (∀ mask, (get_string w st 1).1 = some mask →
      ∃ (st' : lua_State) (t : LuaTable), glob_impl w st dirs_only = some (st', 1) ∧
        lua_results st' 1 = [LuaValue.table t] ∧
        t.keys = oneTo
          (w.globber_next ⟨mask, !dirs_only, w.g_glob_hidden, w.g_glob_system⟩).length ∧
        t.values = (w.globber_next ⟨mask, !dirs_only, w.g_glob_hidden, w.g_glob_system⟩).map
          LuaValue.string ∧
        ∀ k : Int, t.rawgeti k =
          if 1 ≤ k then
            (((w.globber_next
              ⟨mask, !dirs_only, w.g_glob_hidden, w.g_glob_system⟩)[(k - 1).toNat]?).map
              LuaValue.string).getD LuaValue.nil
          else LuaValue.nil) ∧
    ((get_string w st 1).1 = none → glob_impl w st dirs_only = some (st, 0)) ∧
    glob_files w st = glob_impl w st false ∧ glob_dirs w st = glob_impl w st true := by
  refine ⟨?_, ?_, rfl, rfl⟩
  · intro mask h
    cases hg : get_string w st 1 with
    | mk o st1 =>
      rw [hg] at h
      simp only at h
      subst h
      exact ⟨_, _, glob_impl_run w st st1 mask dirs_only hg,
        lua_results_append _ [_] _ 1 rfl, listing_keys_oneTo _, listingFrom_values _ _ _,
        rawgeti_listing _⟩
  · intro h
    have hst := get_string_none w st 1 h
    cases hg : get_string w st 1 with
    | mk o st1 =>
      rw [hg] at h hst
      simp only at h hst
      subst h; subst hst
      simp [glob_impl, hg]

/-- Witness of C8 on the example host: `os.globfiles("*")`. -/
theorem glob_impl_listing_witness :
    ∃ (st' : lua_State) (t : LuaTable),
      glob_impl exampleWorld ⟨[LuaValue.string "*"], []⟩ false = some (st', 1) ∧
      lua_results st' 1 = [LuaValue.table t] ∧
      t.keys = oneTo (exampleWorld.globber_next
        ⟨"*", !false, exampleWorld.g_glob_hidden, exampleWorld.g_glob_system⟩).length ∧
      t.values = (exampleWorld.globber_next
        ⟨"*", !false, exampleWorld.g_glob_hidden, exampleWorld.g_glob_system⟩).map
          LuaValue.string ∧
      ∀ k : Int, t.rawgeti k =
        if 1 ≤ k then
          (((exampleWorld.globber_next
            ⟨"*", !false, exampleWorld.g_glob_hidden,
              exampleWorld.g_glob_system⟩)[(k - 1).toNat]?).map
            LuaValue.string).getD LuaValue.nil
        else LuaValue.nil :=
  (glob_impl_listing exampleWorld ⟨[LuaValue.string "*"], []⟩ false).1 "*" rfl

/-- Every name the specification lists is the non-empty, `=`-free prefix of a
record that does not start with `=`. -/
theorem spec_env_names_shape (recs : List (List Char)) :
    ∀ s ∈ spec_env_names recs,
      s.data.head? ≠ some '=' ∧ s.data ≠ [] ∧ '=' ∉ s.data := by
  intro s hs
  simp only [spec_env_names, List.mem_map, List.mem_filter] at hs
  obtain ⟨r, ⟨hr, hhead⟩, rfl⟩ := hs
  have hkeep := List.mem_takeWhile_imp hr
  have hne : r.head? ≠ some '=' := by simpa using hhead
  have heq : '=' ∈ r := by
    simp only [Bool.or_eq_true, decide_eq_true_eq] at hkeep
    rcases hkeep with h | h
    · exact absurd h hne
    · exact h
  cases r with
  | nil => simp at heq
  | cons b r1 =>
    have hb : b ≠ '=' := by simpa using hne
    have hn := takeWhile_not_mem '=' (b :: r1)
    refine ⟨?_, ?_, hn⟩
    · simp [recordName, List.takeWhile, hb]
    · simp [recordName, List.takeWhile, hb]

/-- C5: for every environment block, that is well-formed records followed by
an extra NUL (and whatever the memory holds after it), `get_env_names`
returns one table in which no value starts with `=`; every value is a
non-empty string without any `=`. -/
theorem get_env_names_hides_equals (w : World) (st : lua_State) (recs : List (List Char))
    (tail : List Char) (hwf : WellFormedRecords recs)
    (hblock : w.GetEnvironmentStrings = some (envBlock recs ++ tail)) :
    ∃ (st' : lua_State) (t : LuaTable), get_env_names w st = some (st', 1) ∧
      lua_results st' 1 = [LuaValue.table t] ∧
      ∀ v ∈ t.values, ∃ s, v = LuaValue.string s ∧
        s.data.head? ≠ some '=' ∧ s.data ≠ [] ∧ '=' ∉ s.data := by
  refine ⟨_, _, get_env_names_run w st recs tail hwf hblock,
    lua_results_append _ [_] _ 1 rfl, ?_⟩
  intro v hv
  rw [listingFrom_values] at hv
  obtain ⟨s, hs, rfl⟩ := List.mem_map.1 hv
  exact ⟨s, rfl, spec_env_names_shape recs s hs⟩

/-- Witness of C5 on the example host, whose block holds the hidden record
`=C:=C:/work`. -/
theorem get_env_names_hides_equals_witness :
    ∃ (st' : lua_State) (t : LuaTable), get_env_names exampleWorld ⟨[], []⟩ = some (st', 1) ∧
      lua_results st' 1 = [LuaValue.table t] ∧
      ∀ v ∈ t.values, ∃ s, v = LuaValue.string s ∧
        s.data.head? ≠ some '=' ∧ s.data ≠ [] ∧ '=' ∉ s.data :=
  get_env_names_hides_equals exampleWorld ⟨[], []⟩
    ["PATH=x".data, "=C:=C:/work".data, "X=".data] [] (by unfold WellFormedRecords; decide) rfl

/-- C6: for every environment block, given as its list of well-formed
records (followed by the extra NUL and whatever the memory holds after it),
`get_env_names` returns exactly one result, a table whose keys are `1..n` and
whose values are, in block order, the names the specification lists: the
prefix before the first `=` of each record that does not start with `=`, over
the records before the first one that neither starts with `=` nor contains
`=`. Key `k` holds the `k`-th of these names and every other key reads as
`nil`. -/
theorem get_env_names_listing (w : World) (st : lua_State) (recs : List (List Char))
    (tail : List Char) (hwf : WellFormedRecords recs)
    (hblock : w.GetEnvironmentStrings = some (envBlock recs ++ tail)) :
    ∃ (st' : lua_State) (t : LuaTable), get_env_names w st = some (st', 1) ∧
      lua_results st' 1 = [LuaValue.table t] ∧
      t.keys = oneTo (spec_env_names recs).length ∧
      t.values = (spec_env_names recs).map LuaValue.string ∧
      ∀ k : Int, t.rawgeti k =
        if 1 ≤ k then
          (((spec_env_names recs)[(k - 1).toNat]?).map LuaValue.string).getD LuaValue.nil
        else LuaValue.nil :=
  ⟨_, _, get_env_names_run w st recs tail hwf hblock, lua_results_append _ [_] _ 1 rfl,
    listing_keys_oneTo _, listingFrom_values _ _ _, rawgeti_listing _⟩

/-- Witness of C6: a block whose third record `BROKEN` has no `=`; the names
before it are returned and the record after it is not. -/
theorem get_env_names_listing_witness :
    ∃ (st' : lua_State) (t : LuaTable),
      get_env_names exampleWorldBrokenEnv ⟨[], []⟩ = some (st', 1) ∧
      lua_results st' 1 = [LuaValue.table t] ∧
      t.keys = oneTo
        (spec_env_names ["A=1".data, "=C:=C:/".data, "BROKEN".data, "B=2".data]).length ∧
      t.values = (spec_env_names
        ["A=1".data, "=C:=C:/".data, "BROKEN".data, "B=2".data]).map LuaValue.string ∧
      ∀ k : Int, t.rawgeti k =
        if 1 ≤ k then
          (((spec_env_names ["A=1".data, "=C:=C:/".data, "BROKEN".data,
            "B=2".data])[(k - 1).toNat]?).map LuaValue.string).getD LuaValue.nil
        else LuaValue.nil :=
  get_env_names_listing exampleWorldBrokenEnv ⟨[], []⟩
    ["A=1".data, "=C:=C:/".data, "BROKEN".data, "B=2".data] []
    (by unfold WellFormedRecords; decide) rfl

/-- The walk over the block with the malformed record `BROKEN`, evaluated:
the name `A` collected before it is returned under key 1, the hidden record
is skipped and `B` is never reached. -/
theorem get_env_names_partial_listing :
    get_env_names exampleWorldBrokenEnv ⟨[], []⟩
      = some (⟨[LuaValue.table [(1, LuaValue.string "A")]],
          [OsCall.GetEnvironmentStrings, OsCall.FreeEnvironmentStrings]⟩, 1) ∧
    spec_env_names ["A=1".data, "=C:=C:/".data, "BROKEN".data, "B=2".data] = ["A"] :=
  ⟨rfl, rfl⟩

/-- The walk over the block of the example host, evaluated: `PATH` and `X`
are listed and the hidden record `=C:=C:/work` is not. -/
theorem get_env_names_example :
    get_env_names exampleWorld ⟨[], []⟩
      = some (⟨[LuaValue.table [(1, LuaValue.string "PATH"), (2, LuaValue.string "X")]],
          [OsCall.GetEnvironmentStrings, OsCall.FreeEnvironmentStrings]⟩, 1) :=
  rfl

/-- Whatever the alias buffer holds, a call of `get_aliases` that returns
declares one result, has the stack one value deeper with a table on top, and
has logged the queries in the order of the source. -/
theorem get_aliases_returns (w : World) (st st' : lua_State) (n : Nat)
    (h : get_aliases w st = some (st', n)) :
    n = 1 ∧ (∃ t, st'.stack = st.stack ++ [LuaValue.table t]) ∧
    (w.get_file_name.1 = true →
      st.calls ++ [OsCall.get_file_name,
        OsCall.GetConsoleAliasesLength (w.get_name w.get_file_name.2)] <+: st'.calls) := by
  unfold get_aliases at h
  simp only at h
  split at h
  · rename_i hfail
    simp only [Option.some.injEq, Prod.mk.injEq] at h
    obtain ⟨rfl, rfl⟩ := h
    refine ⟨rfl, ⟨[], rfl⟩, fun hok => ?_⟩
    rw [hok] at hfail
    exact absurd hfail (by decide)
  · split at h
    · simp only [Option.some.injEq, Prod.mk.injEq] at h
      obtain ⟨rfl, rfl⟩ := h
      exact ⟨rfl, ⟨[], rfl⟩, fun _ => by simp [lua_State.log, lua_createtable, lua_push]⟩
    · split at h
      · simp only [Option.some.injEq, Prod.mk.injEq] at h
        obtain ⟨rfl, rfl⟩ := h
        exact ⟨rfl, ⟨[], rfl⟩, fun _ =>
          ⟨[OsCall.GetConsoleAliases (w.get_name w.get_file_name.2)], by
            simp [lua_State.log, lua_createtable, lua_push]⟩⟩
      · split at h
        · rename_i st4 hloop
          simp only [Option.some.injEq, Prod.mk.injEq] at h
          obtain ⟨rfl, rfl⟩ := h
          have hst : (((lua_createtable st).log OsCall.get_file_name).log
                (OsCall.GetConsoleAliasesLength (w.get_name w.get_file_name.2))).log
                (OsCall.GetConsoleAliases (w.get_name w.get_file_name.2))
              = ⟨st.stack ++ [LuaValue.table []], st.calls ++ [OsCall.get_file_name,
                  OsCall.GetConsoleAliasesLength (w.get_name w.get_file_name.2),
                  OsCall.GetConsoleAliases (w.get_name w.get_file_name.2)]⟩ := by
            simp [lua_createtable, lua_push, lua_State.log]
          rw [hst] at hloop
          obtain ⟨t', ht'⟩ := get_aliases_loop_shape _ _ _ _ _ _ _ _ _ hloop
          subst ht'
          exact ⟨rfl, ⟨t', rfl⟩, fun _ =>
            ⟨[OsCall.GetConsoleAliases (w.get_name w.get_file_name.2)], by simp⟩⟩
        · cases h

/-- C7: when `process().get_file_name` fails, `get_aliases` returns exactly
one result, an empty table, and the only collaborator call it makes is that
query. When the query succeeds, every call that returns has gone on to ask
for the aliases of the path's base name and declares one result; and the call
does return when the operating system hands over a well-formed alias block. -/
theorem get_aliases_host_query (w : World) (st : lua_State) :
    (w.get_file_name.1 = false →
      ∃ st', get_aliases w st = some (st', 1) ∧
        lua_results st' 1 = [LuaValue.table []] ∧
        st'.calls = st.calls ++ [OsCall.get_file_name]) ∧
    (w.get_file_name.1 = true → ∀ st' n, get_aliases w st = some (st', n) →
      n = 1 ∧ st.calls ++ [OsCall.get_file_name,
        OsCall.GetConsoleAliasesLength (w.get_name w.get_file_name.2)] <+: st'.calls) ∧
    (w.get_file_name.1 = true → w.AliasesWellFormed →
      ∃ st', get_aliases w st = some (st', 1)) := by
  refine ⟨?_, ?_, ?_⟩
  · intro hfail
    refine ⟨(lua_createtable st).log OsCall.get_file_name, ?_,
      lua_results_append _ [_] _ 1 rfl, rfl⟩
    simp [get_aliases, hfail]
  · intro hok st' n h
    obtain ⟨h1, _, h3⟩ := get_aliases_returns w st st' n h
    exact ⟨h1, h3 hok⟩
  · intro _ hwf
    obtain ⟨st', h, _⟩ := get_aliases_depth w hwf st
    exact ⟨st', h⟩

/-- The alias buffer of the example host is an alias block. -/
theorem exampleWorld_aliases : exampleWorld.AliasesWellFormed := fun _ _ _ =>
  ⟨["ls=dir".data, "cat=type".data], [], by decide, rfl, rfl⟩

/-- Witness of C7: the example host with a failing and with a succeeding
query for the executable path. -/
theorem get_aliases_host_query_witness :
    (∃ st', get_aliases exampleWorldNoHost ⟨[], []⟩ = some (st', 1) ∧
      lua_results st' 1 = [LuaValue.table []] ∧
      st'.calls = [] ++ [OsCall.get_file_name]) ∧
    (∃ st', get_aliases exampleWorld ⟨[], []⟩ = some (st', 1) ∧
      [] ++ [OsCall.get_file_name, OsCall.GetConsoleAliasesLength
        (exampleWorld.get_name exampleWorld.get_file_name.2)] <+: st'.calls) :=
  ⟨(get_aliases_host_query exampleWorldNoHost ⟨[], []⟩).1 rfl,
   (get_aliases_host_query exampleWorld ⟨[], []⟩).2.2 rfl exampleWorld_aliases |>.elim
     fun st' h => ⟨st', h,
       ((get_aliases_host_query exampleWorld ⟨[], []⟩).2.1 rfl st' 1 h).2⟩⟩

/-- C1, as the code behaves: when `process().get_file_name` succeeds with
any path, `get_host` returns zero results and pushes nothing; it pushes the
contents of the buffer only when the query fails. -/
theorem get_host_inverted (w : World) (st : lua_State) (path : String) :
    get_host { w with get_file_name := (true, path) } st
      = some (st.log OsCall.get_file_name, 0) ∧
    get_host { w with get_file_name := (false, path) } st
      = some (lua_pushstring (st.log OsCall.get_file_name) path, 1) :=
  ⟨rfl, rfl⟩

/-- C2, as the code behaves: for the two aliases `ls=dir` and `cat=type` of
the example host, `get_aliases` stores the names under the keys 1 and 3; key
2 reads as `nil` and the second name is found under key 3. -/
theorem get_aliases_skips_keys :
    get_aliases exampleWorld ⟨[], []⟩
      = some (⟨[LuaValue.table [(1, LuaValue.string "ls"), (3, LuaValue.string "cat")]],
          [OsCall.get_file_name, OsCall.GetConsoleAliasesLength "cmd.exe",
            OsCall.GetConsoleAliases "cmd.exe"]⟩, 1) ∧
    LuaTable.rawgeti [(1, LuaValue.string "ls"), (3, LuaValue.string "cat")] 2
      = LuaValue.nil ∧
    LuaTable.rawgeti [(1, LuaValue.string "ls"), (3, LuaValue.string "cat")] 3
      = LuaValue.string "cat" :=
  ⟨rfl, rfl, rfl⟩

/-- C9: each of the fifteen adapters of `methods`, for every stack and every
collaborator outcome, leaves the value stack at its depth at entry plus the
result count it returns; every adapter does return when the collaborators
hand over well-formed blocks; and the table-building adapters `glob_impl`
(given a mask), `get_env_names` and `get_aliases` declare exactly one result
and leave the stack one value deeper, whatever the number of entries they
insert. -/
theorem adapters_keep_depth (w : World) (st : lua_State) :
    methods.length = 15 ∧
    (∀ m ∈ methods, ∀ st' n, m.2 w st = some (st', n) →
      st'.stack.length = st.stack.length + n) ∧
    (w.WellFormed → ∀ m ∈ methods, ∃ st' n, m.2 w st = some (st', n)) ∧
    (∀ dirs_only st' n, (get_string w st 1).1 ≠ none →
      glob_impl w st dirs_only = some (st', n) →
      n = 1 ∧ st'.stack.length = st.stack.length + 1) ∧
    (∀ st' n, get_env_names w st = some (st', n) →
      n = 1 ∧ st'.stack.length = st.stack.length + 1) ∧
    (∀ st' n, get_aliases w st = some (st', n) →
      n = 1 ∧ st'.stack.length = st.stack.length + 1) := by
  have henv : ∀ st' n, get_env_names w st = some (st', n) →
      n = 1 ∧ st'.stack.length = st.stack.length + 1 := fun st' n h => by
    obtain ⟨h1, t, ht⟩ := get_env_names_returns w st st' n h
    exact ⟨h1, by simp [ht]⟩
  have hali : ∀ st' n, get_aliases w st = some (st', n) →
      n = 1 ∧ st'.stack.length = st.stack.length + 1 := fun st' n h => by
    obtain ⟨h1, ⟨t, ht⟩, _⟩ := get_aliases_returns w st st' n h
    exact ⟨h1, by simp [ht]⟩
  refine ⟨rfl, ?_, ?_, ?_, henv, hali⟩
  · intro m hm
    simp only [methods, List.mem_cons, List.mem_singleton, List.not_mem_nil, or_false] at hm
    rcases hm with h | h | h | h | h | h | h | h | h | h | h | h | h | h | h <;> subst h
    · exact (set_current_dir_depth w st).of_returns
    · exact (get_current_dir_depth w st).of_returns
    · exact (make_dir_depth w st).of_returns
    · exact (remove_dir_depth w st).of_returns
    · exact (is_dir_depth w st).of_returns
    · exact (is_file_depth w st).of_returns
    · exact (unlink_depth w st).of_returns
    · exact (move_depth w st).of_returns
    · exact (copy_depth w st).of_returns
    · exact (glob_impl_depth w st true).of_returns
    · exact (glob_impl_depth w st false).of_returns
    · exact (get_env_depth w st).of_returns
    · intro st' n h
      obtain ⟨h1, h2⟩ := henv st' n h
      rw [h2, h1]
    · exact (get_host_depth w st).of_returns
    · intro st' n h
      obtain ⟨h1, h2⟩ := hali st' n h
      rw [h2, h1]
  · intro hw m hm
    simp only [methods, List.mem_cons, List.mem_singleton, List.not_mem_nil, or_false] at hm
    rcases hm with h | h | h | h | h | h | h | h | h | h | h | h | h | h | h <;> subst h
    · exact (set_current_dir_depth w st).returns
    · exact (get_current_dir_depth w st).returns
    · exact (make_dir_depth w st).returns
    · exact (remove_dir_depth w st).returns
    · exact (is_dir_depth w st).returns
    · exact (is_file_depth w st).returns
    · exact (unlink_depth w st).returns
    · exact (move_depth w st).returns
    · exact (copy_depth w st).returns
    · exact (glob_impl_depth w st true).returns
    · exact (glob_impl_depth w st false).returns
    · exact (get_env_depth w st).returns
    · obtain ⟨st', h1, _⟩ := get_env_names_depth w hw.1 st
      exact ⟨st', 1, h1⟩
    · exact (get_host_depth w st).returns
    · obtain ⟨st', h1, _⟩ := get_aliases_depth w hw.2 st
      exact ⟨st', 1, h1⟩
  · intro dirs_only st' n hmask h
    have hl := get_string_stack_length w st 1
    cases hg : get_string w st 1 with
    | mk o st1 =>
      rw [hg] at hmask hl
      simp only at hmask hl
      cases o with
      | none => exact absurd rfl hmask
      | some mask =>
        rw [glob_impl_run w st st1 mask dirs_only hg] at h
        simp only [Option.some.injEq, Prod.mk.injEq] at h
        obtain ⟨rfl, rfl⟩ := h
        exact ⟨rfl, by simpa using hl⟩

/-- The example host hands over well-formed blocks. -/
theorem exampleWorld_wellFormed : exampleWorld.WellFormed :=
  ⟨Or.inr ⟨["PATH=x".data, "=C:=C:/work".data, "X=".data], [],
    by unfold WellFormedRecords; decide, rfl⟩, exampleWorld_aliases⟩

/-- Witness of C9: on the example host, called with the single argument
`"*"`, every adapter returns and keeps the depth discipline. -/
theorem adapters_keep_depth_witness :
    ∀ m ∈ methods, ∃ st' n, m.2 exampleWorld ⟨[LuaValue.string "*"], []⟩ = some (st', n) ∧
      st'.stack.length = [LuaValue.string "*"].length + n := fun m hm =>
  ((adapters_keep_depth exampleWorld ⟨[LuaValue.string "*"], []⟩).2.2.1
      exampleWorld_wellFormed m hm).elim fun st' h => h.elim fun n hn =>
    ⟨st', n, hn,
      (adapters_keep_depth exampleWorld ⟨[LuaValue.string "*"], []⟩).2.1 m hm st' n hn⟩

end OsLuaApi
